import Mathlib

/-!
# TextBound Castle Crawl — verification of the game engine

A shallow embedding, in Lean 4, of the core engine of the TextBound Castle
Crawl repository (TypeScript): direction normalization and exit-table
construction (`server/directions.ts`), coordinate inference, the A*/Dijkstra
pathfinder (`server/pathfinding.ts`), and the per-session game state machine
(`server/game.ts`, `server/commands.ts`).

JavaScript `Map` objects are embedded as insertion-ordered association lists
(`aset` mirrors `Map.prototype.set`: update in place, else append; `alookup`
mirrors `Map.prototype.get`).  Numbers that the code uses as sizes, costs and
priorities are embedded as `Nat`; inferred coordinates as `Int`.  Mutation is
embedded as explicit state passing.
-/

namespace TextBound

/-- `Map.prototype.get`: first binding of the key, if any. -/
def alookup {β : Type} : List (String × β) → String → Option β
  | [], _ => none
  | (k, v) :: rest, key => if key = k then some v else alookup rest key

/-- `Map.prototype.set`: update the existing binding in place, else append
(JavaScript maps preserve insertion order). -/
def aset {β : Type} : List (String × β) → String → β → List (String × β)
  | [], key, val => [(key, val)]
  | (k, v) :: rest, key, val =>
    if key = k then (key, val) :: rest else (k, v) :: aset rest key val

/-- `Map.prototype.has`. -/
def ahas {β : Type} (m : List (String × β)) (key : String) : Bool :=
  (alookup m key).isSome

/-- The keys of a map, in insertion order (`Map.prototype.keys`). -/
def akeys {β : Type} (m : List (String × β)) : List String :=
  m.map Prod.fst

/-- A kernel-computable embedding of `String.prototype.toLowerCase` (the code
only ever compares ASCII tokens). -/
def jsToLower (s : String) : String := ⟨s.data.map Char.toLower⟩

theorem alookup_eq_some_iff_mem {β : Type} {m : List (String × β)}
    (hnd : (akeys m).Nodup) (k : String) (v : β) :
    alookup m k = some v ↔ (k, v) ∈ m := by
  induction m with
  | nil => simp [alookup]
  | cons p rest ih =>
    obtain ⟨pk, pv⟩ := p
    simp only [akeys, List.map_cons, List.nodup_cons] at hnd
    rcases eq_or_ne k pk with hk | hk
    · subst hk
      have hnotin : ∀ w, (k, w) ∉ rest := by
        intro w hw
        exact hnd.1 (by simpa [akeys] using List.mem_map_of_mem Prod.fst hw)
      have hlk : alookup ((k, pv) :: rest) k = some pv := by simp [alookup]
      rw [hlk]
      constructor
      · intro h
        cases h
        exact List.mem_cons_self _ _
      · intro h
        rcases List.mem_cons.mp h with h1 | h2
        · cases h1; rfl
        · exact absurd h2 (hnotin v)
    · simp only [alookup, if_neg hk, List.mem_cons, Prod.mk.injEq]
      rw [ih hnd.2]
      constructor
      · exact Or.inr
      · rintro (⟨h1, -⟩ | h)
        · exact absurd h1 hk
        · exact h

/-! ## server/directions.ts -/

/-- `CANON_DIRS` (server/directions.ts line 21). -/
def CANON_DIRS : List String := ["north", "south", "east", "west"]

/-- `DIR_TO_COORD_DELTA` (server/directions.ts lines 27–32): how each
canonical direction changes the inferred coordinates. -/
def DIR_TO_COORD_DELTA : List (String × Int × Int) :=
  [("north", (0, 1)), ("south", (0, -1)), ("east", (1, 0)), ("west", (-1, 0))]

/-- `DirectionSynonyms` (server/directions.ts lines 37–52): all accepted
(lower-case) player inputs, mapped to their canonical direction. -/
def DirectionSynonyms : List (String × String) :=
  [("north", "north"), ("n", "north"),
   ("south", "south"), ("s", "south"),
   ("east", "east"), ("e", "east"), ("right", "east"),
   ("west", "west"), ("w", "west"), ("left", "west"),
   ("up", "north"), ("u", "north"),
   ("down", "south"), ("d", "south")]

/-- `normalizeDirectionInput` (server/directions.ts lines 57–59):
`DirectionSynonyms.get(input.toLowerCase()) || null`.  The map's values are
non-empty strings, hence truthy, so `|| null` is the `Option` of the lookup. -/
def normalizeDirectionInput (input : String) : Option String :=
  alookup DirectionSynonyms (jsToLower input)

/-- `ExitSynonyms` (server/directions.ts lines 68–74): extra exit-table keys
added for each canonical direction by `buildExits`. -/
def ExitSynonyms : List (String × List String) :=
  [("east", ["e", "right", "r"]),
   ("west", ["w", "left", "l"]),
   ("north", ["n", "up", "u"]),
   ("south", ["s", "down", "d"])]

/-- One iteration of the `canonExits.forEach` body of `buildExits`:
`fullExits.set(canonDir, targetRoom)` followed by `synonyms.forEach(set)`. -/
def buildExitsStep (fullExits : List (String × String)) (p : String × String) :
    List (String × String) :=
  let acc1 := aset fullExits p.1 p.2
  match alookup ExitSynonyms p.1 with
  | some synonyms => synonyms.foldl (fun a syn => aset a syn p.2) acc1
  | none => acc1

/-- `buildExits` (server/directions.ts lines 82–98): expand a canonical
direction→target map into the full exit table (canonical keys plus their
synonyms, all pointing at the same target). -/
def buildExits (canonExits : List (String × String)) : List (String × String) :=
  canonExits.foldl buildExitsStep []

/-! ### Claim C4 — direction normalisation -/

/-- The normaliser's table contains the binding (so the claimed synonym "r"
would have to be a key of `DirectionSynonyms` for the claim to hold). -/
theorem normalizeDirectionInput_eq_some_iff (s d : String) :
    normalizeDirectionInput s = some d ↔ (jsToLower s, d) ∈ DirectionSynonyms := by
  have hnd : (akeys DirectionSynonyms).Nodup := by decide
  exact alookup_eq_some_iff_mem hnd (jsToLower s) d

/-- C4 (counterexample): the claim states that "r" is a configured synonym of
east for the direction normaliser, but `normalizeDirectionInput "r"` is `null`
("r" appears only in `ExitSynonyms`, which feeds `buildExits`, not the
normaliser). -/
theorem normalizeDirectionInput_r_cex :
    normalizeDirectionInput "r" = none ∧ normalizeDirectionInput "r" ≠ some "east" := by
  have h0 : normalizeDirectionInput "r" = none := rfl
  exact ⟨h0, by simp [h0]⟩

/-- C4 (amended): for every input string whose lower-casing is a key of the
normaliser's synonym table `DirectionSynonyms` (which for east holds "e" and
"right" but not "r"), `normalizeDirectionInput` returns the table's canonical
direction, case-insensitively; for every string whose lower-casing is outside
the table it returns `none`. -/
theorem normalizeDirectionInput_spec (s : String) :
    (∀ d, (jsToLower s, d) ∈ DirectionSynonyms → normalizeDirectionInput s = some d) ∧
    ((∀ d, (jsToLower s, d) ∉ DirectionSynonyms) → normalizeDirectionInput s = none) := by
  constructor
  · intro d hd
    exact (normalizeDirectionInput_eq_some_iff s d).mpr hd
  · intro h
    cases hval : normalizeDirectionInput s with
    | none => rfl
    | some d =>
      exact absurd ((normalizeDirectionInput_eq_some_iff s d).mp hval) (h d)

/-- C4 witness: at the concrete inputs "E" (a cased synonym) and "zzz" (not a
synonym) the amended claim evaluates as stated. -/
theorem normalizeDirectionInput_spec_witness :
    normalizeDirectionInput "E" = some "east" ∧ normalizeDirectionInput "zzz" = none := by
  constructor
  · exact (normalizeDirectionInput_spec "E").1 "east" (by decide)
  · exact (normalizeDirectionInput_spec "zzz").2
      (by intro d hd; simp [DirectionSynonyms, jsToLower] at hd)

/-! ### Claim C10 — `buildExits` -/

/-- The group of bindings `buildExitsStep` appends for one canonical entry:
the canonical key itself followed by its configured synonyms. -/
def expandEntry (p : String × String) : List (String × String) :=
  (p.1, p.2) :: (match alookup ExitSynonyms p.1 with
    | some synonyms => synonyms.map (fun syn => (syn, p.2))
    | none => [])

/-- The keys contributed by one canonical direction. -/
def expandKeys (d : String) : List String :=
  d :: (match alookup ExitSynonyms d with
    | some synonyms => synonyms
    | none => [])

theorem akeys_map_pair {l : List String} {t : String} :
    akeys (l.map (fun syn => (syn, t))) = l := by
  induction l with
  | nil => rfl
  | cons a rest ih => simp [akeys] at ih ⊢; exact ih

theorem akeys_expandEntry (p : String × String) :
    akeys (expandEntry p) = expandKeys p.1 := by
  unfold expandEntry expandKeys
  cases alookup ExitSynonyms p.1 with
  | none => rfl
  | some syns =>
    show akeys ((p.1, p.2) :: syns.map (fun syn => (syn, p.2))) = p.1 :: syns
    simp only [akeys, List.map_cons]
    rw [show List.map Prod.fst (syns.map (fun syn => (syn, p.2))) =
      akeys (syns.map (fun syn => (syn, p.2))) from rfl, akeys_map_pair]

theorem akeys_append {β : Type} (l1 l2 : List (String × β)) :
    akeys (l1 ++ l2) = akeys l1 ++ akeys l2 := by
  simp [akeys]

theorem aset_of_not_mem_keys {β : Type} {l : List (String × β)} {k : String}
    (h : k ∉ akeys l) (v : β) : aset l k v = l ++ [(k, v)] := by
  induction l with
  | nil => rfl
  | cons p rest ih =>
    simp only [akeys, List.map_cons, List.mem_cons] at h
    push_neg at h
    simp only [aset, if_neg h.1, List.cons_append]
    rw [ih (by simpa [akeys] using h.2)]

theorem aset_of_lookup_eq {β : Type} {l : List (String × β)} {k : String} {v : β}
    (h : alookup l k = some v) : aset l k v = l := by
  induction l with
  | nil => simp [alookup] at h
  | cons p rest ih =>
    by_cases hk : k = p.1
    · subst hk
      have hv : p.2 = v := by simpa [alookup] using h
      obtain ⟨pk, pv⟩ := p
      simp only at hv
      subst hv
      simp [aset]
    · simp only [alookup, if_neg hk] at h
      simp only [aset, if_neg hk]
      rw [ih h]

theorem alookup_append {β : Type} (l1 l2 : List (String × β)) (k : String) :
    alookup (l1 ++ l2) k =
      match alookup l1 k with
      | some v => some v
      | none => alookup l2 k := by
  induction l1 with
  | nil => simp [alookup]
  | cons p rest ih =>
    by_cases hk : k = p.1
    · subst hk; simp [alookup]
    · simp only [List.cons_append, alookup, if_neg hk]
      exact ih

/-- Folding `aset` over fresh, distinct keys appends the corresponding
bindings in order. -/
theorem foldl_aset_fresh {β : Type} (acc : List (String × β)) (ks : List String)
    (v : β) (hnd : ks.Nodup) (hfresh : ∀ k ∈ ks, k ∉ akeys acc) :
    ks.foldl (fun a syn => aset a syn v) acc = acc ++ ks.map (fun k => (k, v)) := by
  induction ks generalizing acc with
  | nil => simp
  | cons k rest ih =>
    have hnd' := List.nodup_cons.mp hnd
    simp only [List.foldl_cons, List.map_cons]
    rw [aset_of_not_mem_keys (hfresh k (List.mem_cons_self _ _)) v]
    rw [ih (acc ++ [(k, v)]) hnd'.2 ?_]
    · simp
    · intro k' hk'
      rw [akeys_append]
      intro hmem
      rcases List.mem_append.mp hmem with h | h
      · exact hfresh k' (List.mem_cons_of_mem _ hk') h
      · simp only [akeys, List.map_cons, List.map_nil, List.mem_singleton] at h
        exact hnd'.1 (h ▸ hk')

/-- Processing one canonical entry over an accumulator that is fresh for that
entry's keys appends exactly the entry's expansion group. -/
theorem buildExitsStep_append (acc : List (String × String)) (d t : String)
    (hd : d ∈ CANON_DIRS) (hfresh : ∀ k ∈ expandKeys d, k ∉ akeys acc) :
    buildExitsStep acc (d, t) = acc ++ expandEntry (d, t) := by
  have main : ∀ (syns : List String), alookup ExitSynonyms d = some syns →
      syns.Nodup → d ∉ syns →
      buildExitsStep acc (d, t) = acc ++ expandEntry (d, t) := by
    intro syns hsyns hnd hdn
    have hexp : expandKeys d = d :: syns := by
      unfold expandKeys; rw [hsyns]
    simp only [buildExitsStep, expandEntry, hsyns]
    rw [aset_of_not_mem_keys (hfresh d (by rw [hexp]; exact List.mem_cons_self _ _)) t]
    rw [foldl_aset_fresh (acc ++ [(d, t)]) syns t hnd ?_]
    · simp
    · intro k hk
      rw [akeys_append]
      intro hmem
      rcases List.mem_append.mp hmem with h | h
      · exact hfresh k (by rw [hexp]; exact List.mem_cons_of_mem _ hk) h
      · simp only [akeys, List.map_cons, List.map_nil, List.mem_singleton] at h
        exact hdn (h ▸ hk)
  fin_cases hd
  · exact main ["n", "up", "u"] rfl (by decide) (by decide)
  · exact main ["s", "down", "d"] rfl (by decide) (by decide)
  · exact main ["e", "right", "r"] rfl (by decide) (by decide)
  · exact main ["w", "left", "l"] rfl (by decide) (by decide)

/-- Keys produced by distinct canonical directions are disjoint. -/
theorem expandKeys_disjoint :
    ∀ d ∈ CANON_DIRS, ∀ d' ∈ CANON_DIRS, d ≠ d' →
      ∀ k ∈ expandKeys d, k ∉ expandKeys d' := by decide

/-- A member of a canonical map expands into keys of its own group only. -/
theorem expandKeys_of_canon (d : String) (hd : d ∈ CANON_DIRS) :
    (expandKeys d).Nodup := by
  fin_cases hd <;> decide

/-- The normal form of a built exit table: the expansion groups of the
canonical entries, concatenated in input order. -/
def exitsNF (m : List (String × String)) : List (String × String) :=
  (m.map expandEntry).flatten

theorem exitsNF_cons (p : String × String) (m : List (String × String)) :
    exitsNF (p :: m) = expandEntry p ++ exitsNF m := by
  simp [exitsNF]

theorem buildExits_foldl (m : List (String × String)) (acc : List (String × String))
    (hk : ∀ p ∈ m, p.1 ∈ CANON_DIRS) (hnd : (akeys m).Nodup)
    (hdisj : ∀ p ∈ m, ∀ k ∈ expandKeys p.1, k ∉ akeys acc) :
    m.foldl buildExitsStep acc = acc ++ exitsNF m := by
  induction m generalizing acc with
  | nil => simp [exitsNF]
  | cons p rest ih =>
    obtain ⟨d, t⟩ := p
    simp only [akeys, List.map_cons, List.nodup_cons] at hnd
    have hdC : d ∈ CANON_DIRS := hk (d, t) (List.mem_cons_self _ _)
    simp only [List.foldl_cons]
    rw [buildExitsStep_append acc d t hdC (hdisj (d, t) (List.mem_cons_self _ _))]
    rw [ih (acc ++ expandEntry (d, t)) (fun q hq => hk q (List.mem_cons_of_mem _ hq))
        hnd.2 ?_]
    · rw [exitsNF_cons, List.append_assoc]
    · intro q hq k hkq
      rw [akeys_append, akeys_expandEntry]
      intro hmem
      rcases List.mem_append.mp hmem with h | h
      · exact hdisj q (List.mem_cons_of_mem _ hq) k hkq h
      · have hqC : q.1 ∈ CANON_DIRS := hk q (List.mem_cons_of_mem _ hq)
        have hne : q.1 ≠ d := by
          intro he
          exact hnd.1 (he ▸ (by simpa [akeys] using List.mem_map_of_mem Prod.fst hq))
        exact expandKeys_disjoint q.1 hqC d hdC hne k hkq h

theorem buildExits_eq_nf (m : List (String × String))
    (hk : ∀ p ∈ m, p.1 ∈ CANON_DIRS) (hnd : (akeys m).Nodup) :
    buildExits m = exitsNF m := by
  have h := buildExits_foldl m [] hk hnd (by intro p _ k _ hmem; simp [akeys] at hmem)
  simpa [buildExits] using h

theorem mem_akeys_exitsNF {m : List (String × String)} {k : String}
    (h : k ∈ akeys (exitsNF m)) : ∃ q ∈ m, k ∈ expandKeys q.1 := by
  induction m with
  | nil => simp [exitsNF, akeys] at h
  | cons p rest ih =>
    rw [exitsNF_cons, akeys_append, akeys_expandEntry] at h
    rcases List.mem_append.mp h with h1 | h2
    · exact ⟨p, List.mem_cons_self _ _, h1⟩
    · obtain ⟨q, hq, hk⟩ := ih h2
      exact ⟨q, List.mem_cons_of_mem _ hq, hk⟩

theorem akeys_exitsNF_nodup (m : List (String × String))
    (hk : ∀ p ∈ m, p.1 ∈ CANON_DIRS) (hnd : (akeys m).Nodup) :
    (akeys (exitsNF m)).Nodup := by
  induction m with
  | nil => simp [exitsNF, akeys]
  | cons p rest ih =>
    simp only [akeys, List.map_cons, List.nodup_cons] at hnd
    have hdC : p.1 ∈ CANON_DIRS := hk p (List.mem_cons_self _ _)
    rw [exitsNF_cons, akeys_append, akeys_expandEntry]
    refine List.Nodup.append (expandKeys_of_canon p.1 hdC)
      (ih (fun q hq => hk q (List.mem_cons_of_mem _ hq)) hnd.2) ?_
    intro k hk1 hk2
    obtain ⟨q, hq, hkq⟩ := mem_akeys_exitsNF hk2
    have hqC : q.1 ∈ CANON_DIRS := hk q (List.mem_cons_of_mem _ hq)
    have hne : p.1 ≠ q.1 := by
      intro he
      exact hnd.1 (he ▸ (by simpa [akeys] using List.mem_map_of_mem Prod.fst hq))
    exact expandKeys_disjoint p.1 hdC q.1 hqC hne k hk1 hkq

theorem mem_exitsNF_of_mem {m : List (String × String)} {p : String × String}
    (hp : p ∈ m) {q : String × String} (hq : q ∈ expandEntry p) :
    q ∈ exitsNF m := by
  induction m with
  | nil => simp at hp
  | cons p' rest ih =>
    rw [exitsNF_cons]
    rcases List.mem_cons.mp hp with h | h
    · exact List.mem_append_left _ (h ▸ hq)
    · exact List.mem_append_right _ (ih h)

/-- A synonym entry appears inside the expansion group of its canonical
direction. -/
theorem mem_expandEntry_syn {d t syn : String} {syns : List String}
    (hs : alookup ExitSynonyms d = some syns) (hsyn : syn ∈ syns) :
    (syn, t) ∈ expandEntry (d, t) := by
  unfold expandEntry
  rw [hs]
  exact List.mem_cons_of_mem _ (List.mem_map_of_mem (fun s => (s, t)) hsyn)

/-- `buildExitsStep` is the identity on an entry whose key is already bound
to the same target and has no configured synonyms. -/
theorem buildExitsStep_noop (acc : List (String × String)) (k v : String)
    (hlk : alookup acc k = some v) (hsyn : alookup ExitSynonyms k = none) :
    buildExitsStep acc (k, v) = acc := by
  simp [buildExitsStep, hsyn, aset_of_lookup_eq hlk]

theorem alookup_map_pair_of_mem {l : List String} {t k : String} (h : k ∈ l) :
    alookup (l.map (fun s => (s, t))) k = some t := by
  induction l with
  | nil => simp at h
  | cons a rest ih =>
    rcases List.mem_cons.mp h with rfl | h'
    · simp [alookup]
    · by_cases hk : k = a
      · subst hk; simp [alookup]
      · simp only [List.map_cons, alookup, if_neg hk]
        exact ih h'

theorem mem_akeys_of_alookup {β : Type} {l : List (String × β)} {k : String}
    {v : β} (h : alookup l k = some v) : k ∈ akeys l := by
  induction l with
  | nil => simp [alookup] at h
  | cons p rest ih =>
    by_cases hk : k = p.1
    · subst hk; simp [akeys]
    · simp only [alookup, if_neg hk] at h
      exact List.mem_cons_of_mem _ (ih h)

theorem alookup_none_of_not_mem_keys {β : Type} {l : List (String × β)}
    {k : String} (h : k ∉ akeys l) : alookup l k = none := by
  cases hv : alookup l k with
  | none => rfl
  | some v => exact absurd (mem_akeys_of_alookup hv) h

/-- Re-feeding bound synonym entries through `buildExitsStep` is a no-op. -/
theorem foldl_step_noop (acc : List (String × String)) (l : List String)
    (t : String)
    (h : ∀ s ∈ l, alookup acc s = some t ∧ alookup ExitSynonyms s = none) :
    (l.map (fun s => (s, t))).foldl buildExitsStep acc = acc := by
  induction l with
  | nil => rfl
  | cons a rest ih =>
    simp only [List.map_cons, List.foldl_cons]
    rw [buildExitsStep_noop acc a t (h a (List.mem_cons_self _ _)).1
      (h a (List.mem_cons_self _ _)).2]
    exact ih (fun s hs => h s (List.mem_cons_of_mem _ hs))

/-- Replaying one full expansion group through `buildExitsStep` over an
accumulator fresh for its keys appends exactly that group once. -/
theorem foldl_step_group (acc : List (String × String)) (d t : String)
    (hd : d ∈ CANON_DIRS) (hfresh : ∀ k ∈ expandKeys d, k ∉ akeys acc) :
    (expandEntry (d, t)).foldl buildExitsStep acc = acc ++ expandEntry (d, t) := by
  have main : ∀ (syns : List String), alookup ExitSynonyms d = some syns →
      d ∉ syns → (∀ s ∈ syns, alookup ExitSynonyms s = none) →
      (expandEntry (d, t)).foldl buildExitsStep acc = acc ++ expandEntry (d, t) := by
    intro syns hsyns hdn hnone
    have hexp : expandEntry (d, t) = (d, t) :: syns.map (fun s => (s, t)) := by
      unfold expandEntry; rw [hsyns]
    have hacc' : ∀ s ∈ syns, alookup (acc ++ expandEntry (d, t)) s = some t := by
      intro s hs
      rw [alookup_append]
      have h1 : alookup acc s = none :=
        alookup_none_of_not_mem_keys (hfresh s (by
          unfold expandKeys; rw [hsyns]; exact List.mem_cons_of_mem _ hs))
      rw [h1, hexp]
      have hne : s ≠ d := fun he => hdn (he ▸ hs)
      show alookup ((d, t) :: syns.map (fun s => (s, t))) s = some t
      simp only [alookup, if_neg hne]
      exact alookup_map_pair_of_mem hs
    calc (expandEntry (d, t)).foldl buildExitsStep acc
        = (syns.map (fun s => (s, t))).foldl buildExitsStep
            (buildExitsStep acc (d, t)) := by rw [hexp]; simp [List.foldl_cons]
      _ = (syns.map (fun s => (s, t))).foldl buildExitsStep
            (acc ++ expandEntry (d, t)) := by
              rw [buildExitsStep_append acc d t hd hfresh]
      _ = acc ++ expandEntry (d, t) :=
            foldl_step_noop _ _ _ (fun s hs => ⟨hacc' s hs, hnone s hs⟩)
  fin_cases hd
  · exact main ["n", "up", "u"] rfl (by decide) (by decide)
  · exact main ["s", "down", "d"] rfl (by decide) (by decide)
  · exact main ["e", "right", "r"] rfl (by decide) (by decide)
  · exact main ["w", "left", "l"] rfl (by decide) (by decide)

/-- Replaying a whole normal-form table through the `buildExits` fold appends
it unchanged. -/
theorem foldl_step_nf (m : List (String × String)) (acc : List (String × String))
    (hk : ∀ p ∈ m, p.1 ∈ CANON_DIRS) (hnd : (akeys m).Nodup)
    (hdisj : ∀ p ∈ m, ∀ k ∈ expandKeys p.1, k ∉ akeys acc) :
    (exitsNF m).foldl buildExitsStep acc = acc ++ exitsNF m := by
  induction m generalizing acc with
  | nil => simp [exitsNF]
  | cons p rest ih =>
    obtain ⟨d, t⟩ := p
    simp only [akeys, List.map_cons, List.nodup_cons] at hnd
    have hdC : d ∈ CANON_DIRS := hk (d, t) (List.mem_cons_self _ _)
    rw [exitsNF_cons, List.foldl_append]
    rw [foldl_step_group acc d t hdC (hdisj (d, t) (List.mem_cons_self _ _))]
    rw [ih (acc ++ expandEntry (d, t)) (fun q hq => hk q (List.mem_cons_of_mem _ hq))
        hnd.2 ?_]
    · rw [List.append_assoc]
    · intro q hq k hkq
      rw [akeys_append, akeys_expandEntry]
      intro hmem
      rcases List.mem_append.mp hmem with h | h
      · exact hdisj q (List.mem_cons_of_mem _ hq) k hkq h
      · have hqC : q.1 ∈ CANON_DIRS := hk q (List.mem_cons_of_mem _ hq)
        have hne : q.1 ≠ d := by
          intro he
          exact hnd.1 (he ▸ (by simpa [akeys] using List.mem_map_of_mem Prod.fst hq))
        exact expandKeys_disjoint q.1 hqC d hdC hne k hkq h

/-- C10: for every canonical-keyed exit mapping (distinct canonical keys, as
a JavaScript `Map` guarantees), `buildExits` returns a table in which every
canonical input key keeps its target (so the key set is a superset of the
input's), every configured synonym of a present canonical key maps to the
same target as its canonical direction, and rebuilding from the already-built
table yields the same table; the construction is a pure function of its input
by construction of the embedding. -/
theorem buildExits_spec (m : List (String × String))
    (hk : ∀ p ∈ m, p.1 ∈ CANON_DIRS) (hnd : (akeys m).Nodup) :
    (∀ p ∈ m, alookup (buildExits m) p.1 = some p.2) ∧
    (∀ p ∈ m, ∀ syns, alookup ExitSynonyms p.1 = some syns →
      ∀ syn ∈ syns, alookup (buildExits m) syn = some p.2) ∧
    buildExits (buildExits m) = buildExits m := by
  have hnf := buildExits_eq_nf m hk hnd
  have hndk := akeys_exitsNF_nodup m hk hnd
  refine ⟨?_, ?_, ?_⟩
  · intro p hp
    rw [hnf]
    exact (alookup_eq_some_iff_mem hndk p.1 p.2).mpr
      (mem_exitsNF_of_mem hp (by
        unfold expandEntry
        cases alookup ExitSynonyms p.1 <;> exact List.mem_cons_self _ _))
  · intro p hp syns hsyns syn hsyn
    rw [hnf]
    refine (alookup_eq_some_iff_mem hndk syn p.2).mpr
      (mem_exitsNF_of_mem hp ?_)
    have : (syn, p.2) ∈ expandEntry (p.1, p.2) := mem_expandEntry_syn hsyns hsyn
    simpa using this
  · rw [hnf]
    show (exitsNF m).foldl buildExitsStep [] = exitsNF m
    have h := foldl_step_nf m [] hk hnd (by intro p _ k _ hmem; simp [akeys] at hmem)
    simpa using h

/-- C10 witness: the Barbican exit map of the shipped castle. -/
theorem buildExits_spec_witness :
    alookup (buildExits [("east", "Kitchen"), ("south", "Gathering Hall"),
      ("west", "Outer Ward")]) "east" = some "Kitchen" ∧
    alookup (buildExits [("east", "Kitchen"), ("south", "Gathering Hall"),
      ("west", "Outer Ward")]) "r" = some "Kitchen" ∧
    buildExits (buildExits [("east", "Kitchen"), ("south", "Gathering Hall"),
      ("west", "Outer Ward")]) =
      buildExits [("east", "Kitchen"), ("south", "Gathering Hall"),
        ("west", "Outer Ward")] := by
  have h := buildExits_spec
    [("east", "Kitchen"), ("south", "Gathering Hall"), ("west", "Outer Ward")]
    (by decide) (by decide)
  exact ⟨h.1 ("east", "Kitchen") (by decide),
    h.2.1 ("east", "Kitchen") (by decide) ["e", "right", "r"] rfl "r" (by decide),
    h.2.2⟩

/-! ## server/types.ts — the level data model -/

/-- `LevelNode` (server/types.ts lines 118–128).  `exits` maps exit keys
(canonical directions and synonyms) to target room names; `size` is the
room's traversal cost (default 1); `x`, `y` are the inferred coordinates,
absent until coordinate inference pins them. -/
structure LevelNode where
  name : String
  exits : List (String × String)
  item : Option String := none
  boss : Option String := none
  size : Option Nat := none
  x : Option Int := none
  y : Option Int := none
deriving DecidableEq

/-- `Level` (server/types.ts line 133): room name → node. -/
abbrev Level := List (String × LevelNode)

/-! ## server/directions.ts — `inferNodeCoordinates` (lines 110–182) -/

/-- The canonical-direction part of a node's exit list: exactly the exits
whose key is in `DIR_TO_COORD_DELTA`, the only ones coordinate inference
follows. -/
def canonExits (nd : LevelNode) : List (String × String) :=
  nd.exits.filter (fun e => (alookup DIR_TO_COORD_DELTA e.1).isSome)

/-- One exit examined inside the BFS loop of `inferNodeCoordinates`
(lines 149–179): if the exit key has a coordinate delta and the target has no
assigned coordinates yet, assign them, enqueue the target and mark it placed;
otherwise leave the state unchanged (a conflicting assignment only logs a
warning). -/
def exploreStep (x y : Int)
    (st : List (String × Int × Int) × List (String × Int × Int) × List String)
    (e : String × String) :
    List (String × Int × Int) × List (String × Int × Int) × List String :=
  let (queueAcc, assignedAcc, unplacedAcc) := st
  match alookup DIR_TO_COORD_DELTA e.1 with
  | none => (queueAcc, assignedAcc, unplacedAcc)
  | some (dx, dy) =>
    let newX := x + dx
    let newY := y + dy
    match alookup assignedAcc e.2 with
    | none =>
      (queueAcc ++ [(e.2, newX, newY)], aset assignedAcc e.2 (newX, newY),
        unplacedAcc.erase e.2)
    | some _ => (queueAcc, assignedAcc, unplacedAcc)

/-- The BFS worklist loop of `inferNodeCoordinates` (lines 131–180).  The
source iterates `while (head < queue.length)`; the embedding keeps the
pending part of the queue and appends pushes at its end.  `fuel` bounds the
number of pops; `inferFuel` below always suffices (each push assigns
coordinates to a previously unassigned name), so the fuel-exhausted branch
returns the same state the empty-queue exit would. -/
def inferLoop (fuel : Nat) (lvl : Level) (queue : List (String × Int × Int))
    (assigned : List (String × Int × Int)) (unplaced : List String) :
    Level × List String :=
  match fuel, queue with
  | _, [] => (lvl, unplaced)
  | 0, _ => (lvl, unplaced)
  | fuel + 1, (nodeName, x, y) :: rest =>
    match alookup lvl nodeName with
    | none => inferLoop fuel lvl rest assigned unplaced
    | some currentNode =>
      let lvl' := aset lvl nodeName { currentNode with x := some x, y := some y }
      let st := currentNode.exits.foldl (exploreStep x y) (rest, assigned, unplaced)
      inferLoop fuel lvl' st.1 st.2.1 st.2.2

/-- Fuel sufficient for the BFS: one pop for the start node plus at most one
push (hence one pop) per level entry and per exit edge. -/
def inferFuel (lvl : Level) : Nat :=
  1 + lvl.length + (lvl.map (fun p => p.2.exits.length)).sum

/-- `inferNodeCoordinates` (server/directions.ts lines 110–182): BFS from the
start node, pinning inferred `(x, y)` coordinates onto each reached node (the
source mutates the level in place; the embedding returns the updated level),
and returning the set of nodes never placed. -/
def inferNodeCoordinates (lvl : Level) (startNodeName : String) :
    Level × List String :=
  let unplaced0 := akeys lvl
  if ahas lvl startNodeName then
    inferLoop (inferFuel lvl) lvl [(startNodeName, 0, 0)]
      [(startNodeName, (0, 0))] (unplaced0.erase startNodeName)
  else
    (lvl, unplaced0)

theorem alookup_aset_self {β : Type} (l : List (String × β)) (k : String) (v : β) :
    alookup (aset l k v) k = some v := by
  induction l with
  | nil => simp [aset, alookup]
  | cons p rest ih =>
    by_cases hk : k = p.1
    · subst hk; simp [aset, alookup]
    · simp only [aset, if_neg hk, alookup, if_neg hk]
      exact ih

theorem alookup_aset_of_ne {β : Type} (l : List (String × β)) {k k' : String}
    (h : k' ≠ k) (v : β) : alookup (aset l k v) k' = alookup l k' := by
  induction l with
  | nil => simp [aset, alookup, if_neg h]
  | cons p rest ih =>
    by_cases hk : k = p.1
    · subst hk
      simp only [aset, if_pos rfl, alookup, if_neg h]
    · by_cases hk' : k' = p.1
      · subst hk'; simp [aset, if_neg hk, alookup]
      · simp only [aset, if_neg hk, alookup, if_neg hk']
        exact ih

/-- Non-canonical exit keys are skipped by the BFS explore fold, so it equals
the fold over the canonical part of the exits. -/
theorem foldl_exploreStep_canon (x y : Int) (exits : List (String × String))
    (st : List (String × Int × Int) × List (String × Int × Int) × List String) :
    exits.foldl (exploreStep x y) st = (exits.filter
      (fun e => (alookup DIR_TO_COORD_DELTA e.1).isSome)).foldl (exploreStep x y) st := by
  induction exits generalizing st with
  | nil => rfl
  | cons e rest ih =>
    by_cases hd : (alookup DIR_TO_COORD_DELTA e.1).isSome
    · rw [List.foldl_cons, List.filter_cons_of_pos (by simpa using hd), List.foldl_cons]
      exact ih _
    · have hnone : alookup DIR_TO_COORD_DELTA e.1 = none := by
        cases h : alookup DIR_TO_COORD_DELTA e.1 with
        | none => rfl
        | some v => rw [h] at hd; simp at hd
      rw [List.foldl_cons, List.filter_cons_of_neg (by simpa using hd)]
      rw [show exploreStep x y st e = st by
        obtain ⟨q, a, u⟩ := st
        simp [exploreStep, hnone]]
      exact ih _

theorem inferLoop_nil (fuel : Nat) (lvl : Level)
    (assigned : List (String × Int × Int)) (unplaced : List String) :
    inferLoop fuel lvl [] assigned unplaced = (lvl, unplaced) := by
  cases fuel <;> rfl

theorem inferLoop_cons_found (fuel : Nat) (lvl : Level) (q : String) (x y : Int)
    (rest : List (String × Int × Int)) (assigned : List (String × Int × Int))
    (unplaced : List String) (nd : LevelNode) (h : alookup lvl q = some nd) :
    inferLoop (fuel + 1) lvl ((q, x, y) :: rest) assigned unplaced =
      (let lvl' := aset lvl q { nd with x := some x, y := some y }
       let st := (canonExits nd).foldl (exploreStep x y) (rest, assigned, unplaced)
       inferLoop fuel lvl' st.1 st.2.1 st.2.2) := by
  simp only [inferLoop, h, canonExits]
  rw [foldl_exploreStep_canon]

/-! ### Claim C6 — coordinate inference on a north/east chain -/

/-- C6: in every level graph whose room `A` has `[("north", B)]` as its
canonical exits, whose room `B` has `[("east", C)]`, and whose room `C` has
none (so no other canonical path reaches them — the claim's "no other path
conflicts"), `inferNodeCoordinates` started at `A` pins `A = (0,0)`,
`B = (0,1)` and `C = (1,1)`, following the delta table north=(0,+1),
south=(0,−1), east=(+1,0), west=(−1,0). -/
theorem inferNodeCoordinates_chain (lvl : Level) (A B C : String)
    (nA nB nC : LevelNode)
    (hA : alookup lvl A = some nA) (hB : alookup lvl B = some nB)
    (hC : alookup lvl C = some nC)
    (hAB : A ≠ B) (hAC : A ≠ C) (hBC : B ≠ C)
    (heA : canonExits nA = [("north", B)])
    (heB : canonExits nB = [("east", C)])
    (heC : canonExits nC = []) :
    alookup DIR_TO_COORD_DELTA "north" = some (0, 1) ∧
    alookup DIR_TO_COORD_DELTA "south" = some (0, -1) ∧
    alookup DIR_TO_COORD_DELTA "east" = some (1, 0) ∧
    alookup DIR_TO_COORD_DELTA "west" = some (-1, 0) ∧
    (alookup (inferNodeCoordinates lvl A).1 A).map (fun nd => (nd.x, nd.y)) =
      some (some 0, some 0) ∧
    (alookup (inferNodeCoordinates lvl A).1 B).map (fun nd => (nd.x, nd.y)) =
      some (some 0, some 1) ∧
    (alookup (inferNodeCoordinates lvl A).1 C).map (fun nd => (nd.x, nd.y)) =
      some (some 1, some 1) := by
  have hBA : B ≠ A := hAB.symm
  have hCA : C ≠ A := hAC.symm
  have hCB : C ≠ B := hBC.symm
  -- at least three pops are available
  have hlen : 3 ≤ lvl.length := by
    have hAk : A ∈ akeys lvl := mem_akeys_of_alookup hA
    have hBk : B ∈ akeys lvl := mem_akeys_of_alookup hB
    have hCk : C ∈ akeys lvl := mem_akeys_of_alookup hC
    have hsub : ({A, B, C} : Finset String) ⊆ (akeys lvl).toFinset := by
      intro x hx
      simp only [Finset.mem_insert, Finset.mem_singleton] at hx
      rcases hx with rfl | rfl | rfl <;> rw [List.mem_toFinset] <;> assumption
    have hcard : ({A, B, C} : Finset String).card = 3 := by
      rw [Finset.card_insert_of_not_mem (by simp [hAB, hAC]),
        Finset.card_insert_of_not_mem (by simp [hBC]), Finset.card_singleton]
    have h1 := Finset.card_le_card hsub
    have h2 := (akeys lvl).toFinset_card_le
    have h3 : (akeys lvl).length = lvl.length := by simp [akeys]
    omega
  obtain ⟨f, hf⟩ : ∃ f, inferFuel lvl = f + 3 :=
    ⟨inferFuel lvl - 3, by unfold inferFuel; omega⟩
  have hstart : ahas lvl A = true := by simp [ahas, hA]
  have hB1 : alookup (aset lvl A { nA with x := some 0, y := some 0 }) B = some nB := by
    rw [alookup_aset_of_ne _ hBA]; exact hB
  have hC1 : alookup (aset (aset lvl A { nA with x := some 0, y := some 0 }) B
      { nB with x := some 0, y := some 1 }) C = some nC := by
    rw [alookup_aset_of_ne _ hCB, alookup_aset_of_ne _ hCA]; exact hC
  have hrun : (inferNodeCoordinates lvl A).1 =
      aset (aset (aset lvl A { nA with x := some 0, y := some 0 }) B
        { nB with x := some 0, y := some 1 }) C { nC with x := some 1, y := some 1 } := by
    unfold inferNodeCoordinates
    rw [hf]
    simp only [hstart, if_true]
    rw [show f + 3 = (f + 2) + 1 from rfl,
      inferLoop_cons_found (f + 2) lvl A 0 0 [] [(A, (0, 0))]
        ((akeys lvl).erase A) nA hA]
    simp only [heA, List.foldl_cons, List.foldl_nil]
    rw [show exploreStep 0 0 ([], [(A, ((0 : Int), (0 : Int)))], (akeys lvl).erase A)
        ("north", B) =
        ([(B, 0, 1)], [(A, ((0 : Int), (0 : Int))), (B, (0, 1))],
          ((akeys lvl).erase A).erase B) from by
      simp [exploreStep, alookup, aset, hBA]]
    simp only
    rw [show f + 2 = (f + 1) + 1 from rfl,
      inferLoop_cons_found (f + 1) _ B 0 1 [] [(A, ((0 : Int), (0 : Int))), (B, (0, 1))]
        (((akeys lvl).erase A).erase B) nB hB1]
    simp only [heB, List.foldl_cons, List.foldl_nil]
    rw [show exploreStep 0 1
        ([], [(A, ((0 : Int), (0 : Int))), (B, (0, 1))], ((akeys lvl).erase A).erase B)
        ("east", C) =
        ([(C, 1, 1)], [(A, ((0 : Int), (0 : Int))), (B, (0, 1)), (C, (1, 1))],
          (((akeys lvl).erase A).erase B).erase C) from by
      simp [exploreStep, alookup, aset, hCA, hCB]]
    simp only
    rw [show f + 1 = f + 1 from rfl,
      inferLoop_cons_found f _ C 1 1 []
        [(A, ((0 : Int), (0 : Int))), (B, (0, 1)), (C, (1, 1))]
        ((((akeys lvl).erase A).erase B).erase C) nC hC1]
    simp only [heC, List.foldl_nil]
    rw [inferLoop_nil]
  refine ⟨rfl, rfl, rfl, rfl, ?_, ?_, ?_⟩
  · rw [hrun, alookup_aset_of_ne _ hAC, alookup_aset_of_ne _ hAB, alookup_aset_self]
    rfl
  · rw [hrun, alookup_aset_of_ne _ hBC, alookup_aset_self]
    rfl
  · rw [hrun, alookup_aset_self]
    rfl

/-- C6 witness: the three-room chain itself. -/
theorem inferNodeCoordinates_chain_witness :
    (alookup (inferNodeCoordinates
      [("A", { name := "A", exits := [("north", "B")] }),
       ("B", { name := "B", exits := [("east", "C")] }),
       ("C", { name := "C", exits := [] })] "A").1 "C").map
        (fun nd => (nd.x, nd.y)) = some (some 1, some 1) := by
  exact (inferNodeCoordinates_chain
    [("A", { name := "A", exits := [("north", "B")] }),
     ("B", { name := "B", exits := [("east", "C")] }),
     ("C", { name := "C", exits := [] })]
    "A" "B" "C" _ _ _ rfl rfl rfl (by decide) (by decide) (by decide)
    (by decide) (by decide) (by decide)).2.2.2.2.2.2

/-! ### Claim C5 — the set of unplaced rooms -/

/-- Reachability along canonical-direction exits, as explored by
`inferNodeCoordinates`: the reflexive-transitive closure of "some exit whose
key has a coordinate delta leads from a present room to the target". -/
inductive Reach (lvl : Level) (s : String) : String → Prop
  | refl : Reach lvl s s
  | step {u v d : String} {nd : LevelNode} :
      Reach lvl s u → alookup lvl u = some nd → (d, v) ∈ nd.exits →
      (alookup DIR_TO_COORD_DELTA d).isSome = true → Reach lvl s v

theorem mem_of_alookup {β : Type} {l : List (String × β)} {k : String} {v : β}
    (h : alookup l k = some v) : (k, v) ∈ l := by
  induction l with
  | nil => simp [alookup] at h
  | cons p rest ih =>
    by_cases hk : k = p.1
    · subst hk
      have hv : p.2 = v := by simpa [alookup] using h
      obtain ⟨pk, pv⟩ := p
      simp only at hv
      subst hv
      exact List.mem_cons_self _ _
    · simp only [alookup, if_neg hk] at h
      exact List.mem_cons_of_mem _ (ih h)

theorem ahas_aset_iff {β : Type} (a : List (String × β)) (k : String) (v : β)
    (n : String) : ahas (aset a k v) n = true ↔ (ahas a n = true ∨ n = k) := by
  by_cases hn : n = k
  · subst hn
    simp [ahas, alookup_aset_self]
  · simp [ahas, alookup_aset_of_ne a hn, hn]

/-- Every name of every exit target of the level. -/
def allTargets (lvl : Level) : List String :=
  (lvl.map (fun p => p.2.exits.map Prod.snd)).flatten

/-- The finite universe of names the BFS can ever assign coordinates to. -/
def univNames (lvl : Level) : List String :=
  (akeys lvl ++ allTargets lvl).dedup

/-- How many universe names still lack assigned coordinates. -/
def unassignedCount (lvl0 : Level) (assigned : List (String × Int × Int)) : Nat :=
  ((univNames lvl0).filter (fun k => !(ahas assigned k))).length

theorem filter_length_flip {l : List String} (hnd : l.Nodup) {v : String}
    (hv : v ∈ l) {p q : String → Bool} (hpv : p v = true) (hqv : q v = false)
    (hagree : ∀ k, k ≠ v → q k = p k) :
    (l.filter q).length + 1 = (l.filter p).length := by
  induction l with
  | nil => simp at hv
  | cons a rest ih =>
    rcases List.nodup_cons.mp hnd with ⟨hna, hndr⟩
    rcases List.mem_cons.mp hv with rfl | hvr
    · have hq : (rest.filter q) = rest.filter p :=
        List.filter_congr (fun k hk => hagree k (fun he => hna (he ▸ hk)))
      rw [List.filter_cons_of_neg (by simp [hqv]), List.filter_cons_of_pos (by simp [hpv]), hq]
      simp
    · have hav : a ≠ v := fun he => hna (he ▸ hvr)
      have hqa : q a = p a := hagree a hav
      cases hpa : p a
      · rw [List.filter_cons_of_neg (by simp [hqa.trans hpa]),
          List.filter_cons_of_neg (by simp [hpa])]
        exact ih hndr hvr
      · rw [List.filter_cons_of_pos (hqa.trans hpa), List.filter_cons_of_pos hpa]
        have := ih hndr hvr
        simp only [List.length_cons]
        omega

theorem erase_filter_eq {l : List String} (hnd : l.Nodup) {p q : String → Bool}
    {v : String} (hqv : q v = false) (hagree : ∀ k, k ≠ v → q k = p k) :
    (l.filter p).erase v = l.filter q := by
  induction l with
  | nil => simp
  | cons a rest ih =>
    rcases List.nodup_cons.mp hnd with ⟨hna, hndr⟩
    by_cases hav : a = v
    · subst hav
      have hq : (rest.filter q) = rest.filter p :=
        List.filter_congr (fun k hk => hagree k (fun he => hna (he ▸ hk)))
      by_cases hpa : p a = true
      · rw [List.filter_cons_of_pos (by simp [hpa]),
          List.filter_cons_of_neg (by simp [hqv]), hq]
        simp [List.erase_cons]
      · rw [List.filter_cons_of_neg (by simp [hpa]),
          List.filter_cons_of_neg (by simp [hqv]), hq]
        have : a ∉ rest.filter p := fun hmem => hna (List.mem_of_mem_filter hmem)
        rw [List.erase_of_not_mem this]
    · have hqa : q a = p a := hagree a hav
      by_cases hpa : p a = true
      · rw [List.filter_cons_of_pos (by simp [hpa]),
          List.filter_cons_of_pos (by simp [hqa, hpa])]
        rw [List.erase_cons_tail (by simp [hav])]
        rw [ih hndr]
      · rw [List.filter_cons_of_neg (by simp [hpa]),
          List.filter_cons_of_neg (by simp [hqa, hpa])]
        exact ih hndr

theorem unassignedCount_aset (lvl0 : Level) (assigned : List (String × Int × Int))
    {v : String} (c : Int × Int) (hvU : v ∈ univNames lvl0)
    (hv : ahas assigned v = false) :
    unassignedCount lvl0 (aset assigned v c) + 1 = unassignedCount lvl0 assigned := by
  unfold unassignedCount
  refine filter_length_flip (List.nodup_dedup _) hvU (by simp [hv]) ?_ ?_
  · have := (ahas_aset_iff assigned v c v).mpr (Or.inr rfl)
    simp [this]
  · intro k hk
    by_cases hkk : ahas assigned k = true
    · have := (ahas_aset_iff assigned v c k).mpr (Or.inl hkk)
      simp [this, hkk]
    · have hfalse : ahas (aset assigned v c) k = false := by
        cases h : ahas (aset assigned v c) k
        · rfl
        · rcases (ahas_aset_iff assigned v c k).mp h with h1 | h1
          · exact absurd h1 hkk
          · exact absurd h1 hk
      simp [hfalse]
      simp at hkk
      simp [hkk]

/-- The explore fold over the exits of a reached, present node: all the BFS
invariants survive, the node's canonical exit targets end up assigned, and
one unit of queue growth is paid for by one newly assigned universe name. -/
theorem exploreFold_spec (lvl0 : Level) (s : String) (x y : Int) (u : String)
    (nd : LevelNode) (hu : Reach lvl0 s u) (hnd : alookup lvl0 u = some nd)
    (hndk : (akeys lvl0).Nodup) :
    ∀ (exits : List (String × String)), (∀ e ∈ exits, e ∈ nd.exits) →
    ∀ (rest : List (String × Int × Int)) (assigned : List (String × Int × Int))
      (unplaced : List String),
      (∀ q ∈ rest, ahas assigned q.1 = true) →
      ((rest.map Prod.fst).Nodup) →
      (∀ n, ahas assigned n = true → Reach lvl0 s n) →
      (unplaced = (akeys lvl0).filter (fun k => !(ahas assigned k))) →
      ((fun st =>
        (∀ n, ahas assigned n = true → ahas st.2.1 n = true) ∧
        (∀ q ∈ st.1, ahas st.2.1 q.1 = true) ∧
        ((st.1.map Prod.fst).Nodup) ∧
        (∀ n, ahas st.2.1 n = true → Reach lvl0 s n) ∧
        (st.2.2 = (akeys lvl0).filter (fun k => !(ahas st.2.1 k))) ∧
        (∀ e ∈ exits, (alookup DIR_TO_COORD_DELTA e.1).isSome = true →
          ahas st.2.1 e.2 = true) ∧
        (st.1.length + unassignedCount lvl0 st.2.1 ≤
          rest.length + unassignedCount lvl0 assigned) ∧
        (∀ n, ahas st.2.1 n = true → ahas assigned n = true ∨ n ∈ st.1.map Prod.fst) ∧
        (∀ q ∈ rest, q ∈ st.1))
        (exits.foldl (exploreStep x y) (rest, assigned, unplaced))) := by
  intro exits
  induction exits with
  | nil =>
    intro _ rest assigned unplaced hq hqn hR hU
    simp only [List.foldl_nil]
    exact ⟨fun n h => h, hq, hqn, hR, hU, by simp, le_refl _, fun n h => Or.inl h,
      fun q hq => hq⟩
  | cons e exits' ih =>
    intro hex rest assigned unplaced hq hqn hR hU
    have hex' : ∀ e' ∈ exits', e' ∈ nd.exits := fun e' h => hex e' (List.mem_cons_of_mem _ h)
    simp only [List.foldl_cons]
    cases hdelta : alookup DIR_TO_COORD_DELTA e.1 with
    | none =>
      have hid : exploreStep x y (rest, assigned, unplaced) e = (rest, assigned, unplaced) := by
        simp [exploreStep, hdelta]
      rw [hid]
      obtain ⟨c1, c2, c3, c4, c5, c6, c7, c8, c9⟩ :=
        ih hex' rest assigned unplaced hq hqn hR hU
      refine ⟨c1, c2, c3, c4, c5, ?_, c7, c8, c9⟩
      intro e' he' hiso
      rcases List.mem_cons.mp he' with h1 | h
      · rw [h1, hdelta] at hiso; simp at hiso
      · exact c6 e' h hiso
    | some dxy =>
      obtain ⟨dx, dy⟩ := dxy
      cases hass : alookup assigned e.2 with
      | some c0 =>
        have hid : exploreStep x y (rest, assigned, unplaced) e = (rest, assigned, unplaced) := by
          simp [exploreStep, hdelta, hass]
        rw [hid]
        obtain ⟨c1, c2, c3, c4, c5, c6, c7, c8, c9⟩ :=
          ih hex' rest assigned unplaced hq hqn hR hU
        refine ⟨c1, c2, c3, c4, c5, ?_, c7, c8, c9⟩
        intro e' he' hiso
        rcases List.mem_cons.mp he' with h1 | h
        · rw [h1]
          exact c1 e.2 (by simp [ahas, hass])
        · exact c6 e' h hiso
      | none =>
        have hstep : exploreStep x y (rest, assigned, unplaced) e =
            (rest ++ [(e.2, x + dx, y + dy)], aset assigned e.2 (x + dx, y + dy),
              unplaced.erase e.2) := by
          simp [exploreStep, hdelta, hass]
        rw [hstep]
        have hassF : ahas assigned e.2 = false := by simp [ahas, hass]
        have hmemexits : e ∈ nd.exits := hex e (List.mem_cons_self _ _)
        have hreach2 : Reach lvl0 s e.2 := by
          refine Reach.step (d := e.1) hu hnd ?_ ?_
          · simpa using hmemexits
          · rw [hdelta]; rfl
        have hq2 : ∀ q ∈ rest ++ [(e.2, x + dx, y + dy)],
            ahas (aset assigned e.2 (x + dx, y + dy)) q.1 = true := by
          intro q hqmem
          rcases List.mem_append.mp hqmem with h | h
          · exact (ahas_aset_iff _ _ _ _).mpr (Or.inl (hq q h))
          · rcases List.mem_singleton.mp h with rfl
            exact (ahas_aset_iff _ _ _ _).mpr (Or.inr rfl)
        have hqn2 : (((rest ++ [(e.2, x + dx, y + dy)]).map Prod.fst)).Nodup := by
          rw [List.map_append]
          refine List.Nodup.append hqn (by simp) ?_
          intro a ha hb
          simp only [List.map_cons, List.map_nil, List.mem_singleton] at hb
          subst hb
          obtain ⟨q, hqm, hqe⟩ := List.mem_map.mp ha
          have hthis := hq q hqm
          rw [hqe] at hthis
          rw [hthis] at hassF
          exact absurd hassF (by simp)
        have hR2 : ∀ n, ahas (aset assigned e.2 (x + dx, y + dy)) n = true →
            Reach lvl0 s n := by
          intro n hn
          rcases (ahas_aset_iff _ _ _ _).mp hn with h | rfl
          · exact hR n h
          · exact hreach2
        have hU2 : unplaced.erase e.2 =
            (akeys lvl0).filter
              (fun k => !(ahas (aset assigned e.2 (x + dx, y + dy)) k)) := by
          rw [hU]
          refine erase_filter_eq hndk ?_ ?_
          · have hh : ahas (aset assigned e.2 (x + dx, y + dy)) e.2 = true :=
              (ahas_aset_iff _ _ _ _).mpr (Or.inr rfl)
            simp [hh]
          · intro k hk
            rw [show ahas (aset assigned e.2 (x + dx, y + dy)) k = ahas assigned k from by
              simp [ahas, alookup_aset_of_ne _ hk]]
        obtain ⟨c1, c2, c3, c4, c5, c6, c7, c8, c9⟩ :=
          ih hex' (rest ++ [(e.2, x + dx, y + dy)])
            (aset assigned e.2 (x + dx, y + dy)) (unplaced.erase e.2) hq2 hqn2 hR2 hU2
        have hmono1 : ∀ n, ahas assigned n = true →
            ahas (aset assigned e.2 (x + dx, y + dy)) n = true :=
          fun n h => (ahas_aset_iff _ _ _ _).mpr (Or.inl h)
        have hcount : unassignedCount lvl0 (aset assigned e.2 (x + dx, y + dy)) + 1 =
            unassignedCount lvl0 assigned := by
          refine unassignedCount_aset lvl0 assigned _ ?_ hassF
          unfold univNames
          rw [List.mem_dedup, List.mem_append]
          right
          unfold allTargets
          rw [List.mem_flatten]
          exact ⟨nd.exits.map Prod.snd,
            List.mem_map_of_mem _ (mem_of_alookup hnd), List.mem_map_of_mem _ hmemexits⟩
        refine ⟨fun n h => c1 n (hmono1 n h), c2, c3, c4, c5, ?_, ?_, ?_, ?_⟩
        · intro e' he' hiso
          rcases List.mem_cons.mp he' with h1 | h
          · rw [h1]
            exact c1 e.2 ((ahas_aset_iff _ _ _ _).mpr (Or.inr rfl))
          · exact c6 e' h hiso
        · have hlen : (rest ++ [(e.2, x + dx, y + dy)]).length = rest.length + 1 := by simp
          omega
        · intro n hn
          rcases c8 n hn with h | h
          · rcases (ahas_aset_iff _ _ _ _).mp h with h' | rfl
            · exact Or.inl h'
            · refine Or.inr ?_
              have hmem : (e.2, x + dx, y + dy) ∈ _ :=
                c9 (e.2, x + dx, y + dy) (List.mem_append_right _ (List.mem_singleton.mpr rfl))
              exact List.mem_map.mpr ⟨_, hmem, rfl⟩
          · exact Or.inr h
        · intro q hqmem
          exact c9 q (List.mem_append_left _ hqmem)

/-- If the assigned set contains the start and is closed under canonical
exits, it contains the whole reachable set. -/
theorem ahas_iff_reach_of_closed (lvl0 : Level) (s : String)
    (assigned : List (String × Int × Int))
    (hR : ∀ n, ahas assigned n = true → Reach lvl0 s n)
    (hs : ahas assigned s = true)
    (hclosed : ∀ n, ahas assigned n = true →
      ∀ nd, alookup lvl0 n = some nd → ∀ e ∈ nd.exits,
        (alookup DIR_TO_COORD_DELTA e.1).isSome = true → ahas assigned e.2 = true) :
    ∀ n, ahas assigned n = true ↔ Reach lvl0 s n := by
  intro n
  constructor
  · exact hR n
  · intro h
    induction h with
    | refl => exact hs
    | step h1 h2 h3 h4 ihh => exact hclosed _ ihh _ h2 _ h3 h4

/-- The BFS worklist loop computes exactly the non-reachable rooms, given the
stated invariants (all established by `inferNodeCoordinates`'s initial
state). -/
theorem inferLoop_unplaced (lvl0 : Level) (s : String) (hndk : (akeys lvl0).Nodup) :
    ∀ (fuel : Nat) (lvl : Level) (queue : List (String × Int × Int))
      (assigned : List (String × Int × Int)) (unplaced : List String),
      (queue.length + unassignedCount lvl0 assigned ≤ fuel) →
      (∀ n, (alookup lvl n).map LevelNode.exits = (alookup lvl0 n).map LevelNode.exits) →
      (∀ q ∈ queue, ahas assigned q.1 = true) →
      ((queue.map Prod.fst).Nodup) →
      (∀ n, ahas assigned n = true → Reach lvl0 s n) →
      (ahas assigned s = true) →
      (∀ n, ahas assigned n = true → (∀ q ∈ queue, q.1 ≠ n) →
        ∀ nd, alookup lvl0 n = some nd → ∀ e ∈ nd.exits,
          (alookup DIR_TO_COORD_DELTA e.1).isSome = true → ahas assigned e.2 = true) →
      (unplaced = (akeys lvl0).filter (fun k => !(ahas assigned k))) →
      ∀ k, k ∈ (inferLoop fuel lvl queue assigned unplaced).2 ↔
        (k ∈ akeys lvl0 ∧ ¬ Reach lvl0 s k) := by
  have terminal : ∀ (assigned : List (String × Int × Int)) (unplaced : List String),
      (∀ n, ahas assigned n = true → Reach lvl0 s n) →
      (ahas assigned s = true) →
      (∀ n, ahas assigned n = true →
        ∀ nd, alookup lvl0 n = some nd → ∀ e ∈ nd.exits,
          (alookup DIR_TO_COORD_DELTA e.1).isSome = true → ahas assigned e.2 = true) →
      (unplaced = (akeys lvl0).filter (fun k => !(ahas assigned k))) →
      ∀ k, k ∈ unplaced ↔ (k ∈ akeys lvl0 ∧ ¬ Reach lvl0 s k) := by
    intro assigned unplaced hR hs hcl hU k
    have hiff := ahas_iff_reach_of_closed lvl0 s assigned hR hs hcl
    rw [hU, List.mem_filter]
    constructor
    · rintro ⟨h1, h2⟩
      refine ⟨h1, fun hr => ?_⟩
      have := (hiff k).mpr hr
      rw [this] at h2
      simp at h2
    · rintro ⟨h1, h2⟩
      refine ⟨h1, ?_⟩
      cases hh : ahas assigned k
      · simp
      · exact absurd ((hiff k).mp hh) h2
  intro fuel
  induction fuel with
  | zero =>
    intro lvl queue assigned unplaced hfuel hsame hq hqn hR hs hcl hU k
    cases queue with
    | nil =>
      rw [inferLoop_nil]
      exact terminal assigned unplaced hR hs
        (fun n hn => hcl n hn (by intro q hq'; simp at hq')) hU k
    | cons q rest => simp at hfuel
  | succ fuel ih =>
    intro lvl queue assigned unplaced hfuel hsame hq hqn hR hs hcl hU k
    cases queue with
    | nil =>
      rw [inferLoop_nil]
      exact terminal assigned unplaced hR hs
        (fun n hn => hcl n hn (by intro q hq'; simp at hq')) hU k
    | cons qh rest =>
      obtain ⟨u, x, y⟩ := qh
      cases hlu : alookup lvl u with
      | none =>
        show k ∈ (inferLoop (fuel + 1) lvl ((u, x, y) :: rest) assigned unplaced).2 ↔ _
        rw [show inferLoop (fuel + 1) lvl ((u, x, y) :: rest) assigned unplaced =
            inferLoop fuel lvl rest assigned unplaced from by
          simp only [inferLoop, hlu]]
        refine ih lvl rest assigned unplaced ?_ hsame
          (fun q hq' => hq q (List.mem_cons_of_mem _ hq'))
          ((List.nodup_cons.mp (by simpa using hqn)).2) hR hs ?_ hU k
        · simp only [List.length_cons] at hfuel
          omega
        · intro n hn hnq nd hnd0 e he hde
          by_cases hnu : n = u
          · subst hnu
            have hmap := hsame n
            rw [hlu, hnd0] at hmap
            simp at hmap
          · refine hcl n hn ?_ nd hnd0 e he hde
            intro q hq'
            rcases List.mem_cons.mp hq' with h1 | h1
            · rw [h1]
              exact fun he' => hnu he'.symm
            · exact hnq q h1
      | some nd' =>
        -- the popped node exists; its exits agree with the original level's
        have hmap := hsame u
        rw [hlu] at hmap
        cases halo : alookup lvl0 u with
        | none => rw [halo] at hmap; simp at hmap
        | some nd0 =>
          rw [halo] at hmap
          have hexits : nd'.exits = nd0.exits := by
            simpa using hmap
          have hu : Reach lvl0 s u := hR u (hq (u, x, y) (List.mem_cons_self _ _))
          rw [inferLoop_cons_found fuel lvl u x y rest assigned unplaced nd' hlu]
          simp only
          obtain ⟨c1, c2, c3, c4, c5, c6, c7, c8, c9⟩ :=
            exploreFold_spec lvl0 s x y u nd0 hu halo hndk (canonExits nd')
              (by
                intro e he
                rw [← hexits]
                exact List.mem_of_mem_filter he)
              rest assigned unplaced
              (fun q hq' => hq q (List.mem_cons_of_mem _ hq'))
              ((List.nodup_cons.mp (by simpa using hqn)).2) hR hU
          refine ih _ _ _ _ ?_ ?_ c2 c3 c4 (c1 s hs) ?_ c5 k
          · simp only [List.length_cons] at hfuel
            omega
          · intro n
            by_cases hnu : n = u
            · subst hnu
              rw [alookup_aset_self, halo]
              simp [hexits]
            · rw [alookup_aset_of_ne _ hnu]
              exact hsame n
          · -- closure for the new state
            intro n hn hnq nd hnd0 e he hde
            by_cases hold : ahas assigned n = true
            · by_cases hnu : n = u
              · subst hnu
                have hnd0' : nd = nd0 := by
                  rw [halo] at hnd0
                  exact (Option.some.inj hnd0).symm
                subst hnd0'
                refine c6 e ?_ hde
                unfold canonExits
                rw [hexits]
                exact List.mem_filter.mpr ⟨he, by simpa using hde⟩
              · have hclosed := hcl n hold ?_ nd hnd0 e he hde
                · exact c1 e.2 hclosed
                · intro q hq'
                  rcases List.mem_cons.mp hq' with h1 | h1
                  · rw [h1]
                    exact fun he' => hnu he'.symm
                  · exact hnq q (c9 q h1)
            · rcases c8 n hn with h1 | h1
              · exact absurd h1 hold
              · obtain ⟨q, hqm, hqe⟩ := List.mem_map.mp h1
                exact absurd hqe (hnq q hqm)

/-- C5 (counterexample): the claim requires that the sentinel "Exit" room,
when disconnected, must not appear in the set returned by
`inferNodeCoordinates`; but the function returns every unreached room
including "Exit" — only `createNewGameState`'s warning logic ignores it. -/
theorem inferNodeCoordinates_exit_cex :
    "Exit" ∈ (inferNodeCoordinates
      [("Barbican", { name := "Barbican", exits := [] }),
       ("Exit", { name := "Exit", exits := [] })] "Barbican").2 := by decide

/-- C5 (amended): for every level graph (with distinct room names, as a
JavaScript `Map` guarantees) and start room present in it, the set returned
by `inferNodeCoordinates` is exactly the rooms of the graph never reached
from the start room by canonical-direction BFS; the designated sentinel
"Exit" room is not excluded by `inferNodeCoordinates` itself — when it is
unreached it appears in the returned set, and only the caller
(`createNewGameState`) ignores it when deciding whether to log a warning. -/
theorem inferNodeCoordinates_unplaced_spec (lvl : Level) (s : String)
    (hnd : (akeys lvl).Nodup) (hs : ahas lvl s = true) :
    ∀ k, k ∈ (inferNodeCoordinates lvl s).2 ↔ (k ∈ akeys lvl ∧ ¬ Reach lvl s k) := by
  intro k
  unfold inferNodeCoordinates
  simp only [hs, if_true]
  have hsingle : ∀ n, ahas [(s, ((0 : Int), (0 : Int)))] n = true → n = s := by
    intro n hn
    by_contra hne
    simp [ahas, alookup, hne] at hn
  refine inferLoop_unplaced lvl s hnd (inferFuel lvl) lvl [(s, 0, 0)] [(s, (0, 0))]
    ((akeys lvl).erase s) ?_ (fun n => rfl) ?_ (by simp) ?_ ?_ ?_ ?_ k
  · -- the fuel bound holds initially
    have h1 : (allTargets lvl).length = (lvl.map (fun p => p.2.exits.length)).sum := by
      unfold allTargets
      rw [List.length_flatten, List.map_map]
      simp only [Function.comp_def, List.length_map]
    have h2 : unassignedCount lvl [(s, ((0 : Int), (0 : Int)))] ≤
        (akeys lvl).length + (allTargets lvl).length := by
      unfold unassignedCount
      calc (List.filter _ (univNames lvl)).length
          ≤ (univNames lvl).length := List.length_filter_le _ _
        _ ≤ (akeys lvl ++ allTargets lvl).length :=
            (List.dedup_sublist _).length_le
        _ = (akeys lvl).length + (allTargets lvl).length := by simp
    have h3 : (akeys lvl).length = lvl.length := by simp [akeys]
    unfold inferFuel
    simp only [List.length_cons, List.length_nil]
    omega
  · intro q hq
    rcases List.mem_singleton.mp hq with rfl
    simp [ahas, alookup]
  · intro n hn
    rcases hsingle n hn
    exact Reach.refl
  · simp [ahas, alookup]
  · intro n hn hq' nd hnd0 e he hde
    rcases hsingle n hn
    exact absurd rfl (hq' (s, 0, 0) (List.mem_singleton.mpr rfl))
  · rw [show (akeys lvl).erase s =
        ((akeys lvl).filter (fun _ => true)).erase s from by rw [List.filter_true]]
    refine erase_filter_eq hnd ?_ ?_
    · simp [ahas, alookup]
    · intro n hne
      simp [ahas, alookup, hne]

/-- A small concrete level used to exercise the coordinate-inference claims:
a reachable "Keep" and a disconnected "Exit". -/
def lvlW5 : Level :=
  [("Barbican", { name := "Barbican", exits := [("north", "Keep")] }),
   ("Keep", { name := "Keep", exits := [] }),
   ("Exit", { name := "Exit", exits := [] })]

/-- C5 witness: on a concrete three-room level with a disconnected "Exit", the
amended claim's characterisation holds at the room "Exit". -/
theorem inferNodeCoordinates_unplaced_spec_witness :
    "Exit" ∈ (inferNodeCoordinates lvlW5 "Barbican").2 ↔
      ("Exit" ∈ akeys lvlW5 ∧ ¬ Reach lvlW5 "Barbican" "Exit") :=
  inferNodeCoordinates_unplaced_spec lvlW5 "Barbican" (by decide) (by decide) "Exit"

/-! ## server/pathfinding.ts -/

/-- `PathSegment` (server/types.ts lines 195–202). -/
structure PathSegment where
  nodeName : String
  directionFromPrevious : Option String := none
deriving DecidableEq

/-- The pathfinding error classes of server/error.ts, as returned through the
`Result` failure case by `findPath`. -/
inductive PathError
  | startOrEndNodeNotFound
  | noPathFound
  | internalGraphConsistency
deriving DecidableEq

/-- `getHeuristic` (server/pathfinding.ts lines 66–87): Manhattan distance of
the two nodes' inferred coordinates, or 0 when either node or coordinate is
missing. -/
def getHeuristic (fromNodeName toNodeName : String) (level : Level) : Nat :=
  match alookup level fromNodeName, alookup level toNodeName with
  | some fromNode, some toNode =>
    match fromNode.x, fromNode.y, toNode.x, toNode.y with
    | some x1, some y1, some x2, some y2 => (x1 - x2).natAbs + (y1 - y2).natAbs
    | _, _, _, _ => 0
  | _, _ => 0

/-- `PriorityQueue.enqueue` (server/pathfinding.ts lines 43–46): the source
pushes the new element and re-sorts with JavaScript's stable
`Array.prototype.sort` keyed on `priority`.  Since every enqueue re-sorts and
`dequeue` shifts the head, the queue is always sorted when `enqueue` runs, so
push-then-stable-sort is exactly ordered insertion *after* all elements of
equal or lower priority, which is what this function does. -/
def pqInsert (x : String × Nat) : List (String × Nat) → List (String × Nat)
  | [] => [x]
  | y :: ys => if y.2 ≤ x.2 then y :: pqInsert x ys else x :: y :: ys

def pqEnqueue (q : List (String × Nat)) (item : String) (priority : Nat) :
    List (String × Nat) :=
  pqInsert (item, priority) q

/-- The neighbour loop of `findPath` (server/pathfinding.ts lines 155–185):
for each exit target of the dequeued node, fail on a dangling target,
otherwise relax: if the tentative score improves on the recorded one, record
the predecessor, update the score and enqueue with f = g + h.  The source
reads `gScore.get(curNodeName)!` inside the loop; the non-null assertion is
embedded as `getD 0` (every dequeued name has a recorded score — and a
self-loop relaxation can never succeed, so the value is also loop-invariant). -/
def relaxExits (level : Level) (eNode curNodeName : String) :
    List (String × String) → List (String × Nat) →
    List (String × Option String) → List (String × Nat) →
    Except PathError
      (List (String × Nat) × List (String × Option String) × List (String × Nat))
  | [], q, cameFrom, gScore => .ok (q, cameFrom, gScore)
  | e :: rest, q, cameFrom, gScore =>
    let nextNodeName := e.2
    match alookup level nextNodeName with
    | none => .error .internalGraphConsistency
    | some nextNode =>
      let costToMove := nextNode.size.getD 1
      let tentative := (alookup gScore curNodeName).getD 0 + costToMove
      -- `!gScore.has(next) || tentative < gScore.get(next)!`, split on `has`
      match alookup gScore nextNodeName with
      | none =>
        relaxExits level eNode curNodeName rest
          (pqEnqueue q nextNodeName (tentative + getHeuristic nextNodeName eNode level))
          (aset cameFrom nextNodeName (some curNodeName))
          (aset gScore nextNodeName tentative)
      | some gNext =>
        if tentative < gNext then
          relaxExits level eNode curNodeName rest
            (pqEnqueue q nextNodeName (tentative + getHeuristic nextNodeName eNode level))
            (aset cameFrom nextNodeName (some curNodeName))
            (aset gScore nextNodeName tentative)
        else
          relaxExits level eNode curNodeName rest q cameFrom gScore

/-- Number of level keys without a recorded g-score: the first component of
the termination measure of the A* loop. -/
def gUnassigned (level : Level) (gScore : List (String × Nat)) : Nat :=
  ((akeys level).filter (fun k => !(ahas gScore k))).length

/-- Sum of all recorded g-scores: the second component of the termination
measure (relaxation strictly decreases a recorded score). -/
def gSum (gScore : List (String × Nat)) : Nat :=
  (gScore.map (fun p => p.2)).sum

theorem filter_length_mono {α : Type} {l : List α} {p q : α → Bool}
    (himp : ∀ n, q n = true → p n = true) :
    (l.filter q).length ≤ (l.filter p).length := by
  induction l with
  | nil => simp
  | cons a rest ih =>
    cases hq : q a
    · rw [List.filter_cons_of_neg (by simp [hq])]
      cases hp : p a
      · rw [List.filter_cons_of_neg (by simp [hp])]
        exact ih
      · rw [List.filter_cons_of_pos hp]
        exact le_trans ih (Nat.le_succ _)
    · rw [List.filter_cons_of_pos hq, List.filter_cons_of_pos (himp a hq)]
      simpa using ih

theorem filter_length_lt {α : Type} [DecidableEq α] {l : List α} {p q : α → Bool}
    {k : α} (hk : k ∈ l) (hpk : p k = true) (hqk : q k = false)
    (himp : ∀ n, q n = true → p n = true) :
    (l.filter q).length < (l.filter p).length := by
  induction l with
  | nil => simp at hk
  | cons a rest ih =>
    by_cases hak : a = k
    · subst hak
      rw [List.filter_cons_of_pos hpk, List.filter_cons_of_neg (by simp [hqk])]
      exact Nat.lt_succ_of_le (filter_length_mono himp)
    · rcases List.mem_cons.mp hk with h1 | h1
      · exact absurd h1.symm hak
      · cases hq : q a
        · rw [List.filter_cons_of_neg (by simp [hq])]
          cases hp : p a
          · rw [List.filter_cons_of_neg (by simp [hp])]
            exact ih h1
          · rw [List.filter_cons_of_pos hp]
            exact Nat.lt_succ_of_lt (ih h1)
        · rw [List.filter_cons_of_pos hq, List.filter_cons_of_pos (himp a hq)]
          simpa using ih h1

theorem ahas_aset_of_has {β : Type} {g : List (String × β)} {k : String}
    (hk : ahas g k = true) (v : β) (n : String) :
    ahas (aset g k v) n = ahas g n := by
  by_cases hn : n = k
  · subst hn
    rw [show ahas (aset g n v) n = true from by simp [ahas, alookup_aset_self], hk]
  · simp [ahas, alookup_aset_of_ne _ hn]

theorem gUnassigned_aset_of_has (level : Level) {g : List (String × Nat)}
    {k : String} (hk : ahas g k = true) (v : Nat) :
    gUnassigned level (aset g k v) = gUnassigned level g := by
  unfold gUnassigned
  congr 1
  exact List.filter_congr (fun n _ => by rw [ahas_aset_of_has hk])

theorem gUnassigned_aset_lt (level : Level) {g : List (String × Nat)}
    {k : String} (hkl : k ∈ akeys level) (hk : ahas g k = false) (v : Nat) :
    gUnassigned level (aset g k v) < gUnassigned level g := by
  unfold gUnassigned
  refine filter_length_lt hkl (by simp [hk]) ?_ ?_
  · have : ahas (aset g k v) k = true := by simp [ahas, alookup_aset_self]
    simp [this]
  · intro n hn
    cases hsn : ahas g n
    · simp
    · exfalso
      have hmem : ahas (aset g k v) n = true := (ahas_aset_iff g k v n).mpr (Or.inl hsn)
      rw [hmem] at hn
      simp at hn

theorem gSum_aset_existing {g : List (String × Nat)} {k : String} {old : Nat}
    (hk : alookup g k = some old) (v : Nat) :
    gSum (aset g k v) + old = gSum g + v := by
  induction g with
  | nil => simp [alookup] at hk
  | cons p rest ih =>
    by_cases hkp : k = p.1
    · subst hkp
      have hv : p.2 = old := by simpa [alookup] using hk
      obtain ⟨pk, pv⟩ := p
      simp only at hv
      subst hv
      simp [aset, gSum]
      omega
    · simp only [alookup, if_neg hkp] at hk
      simp only [aset, if_neg hkp]
      have := ih hk
      simp only [gSum, List.map_cons, List.sum_cons] at this ⊢
      omega

theorem relaxExits_cons_missing (level : Level) (eNode curNodeName : String)
    (e : String × String) (rest : List (String × String)) (q : List (String × Nat))
    (cameFrom : List (String × Option String)) (gScore : List (String × Nat))
    (hnext : alookup level e.2 = none) :
    relaxExits level eNode curNodeName (e :: rest) q cameFrom gScore =
      .error .internalGraphConsistency := by
  simp [relaxExits, hnext]

theorem relaxExits_cons_fresh (level : Level) (eNode curNodeName : String)
    (e : String × String) (rest : List (String × String)) (q : List (String × Nat))
    (cameFrom : List (String × Option String)) (gScore : List (String × Nat))
    {nextNode : LevelNode} (hnext : alookup level e.2 = some nextNode)
    (hg : alookup gScore e.2 = none) :
    relaxExits level eNode curNodeName (e :: rest) q cameFrom gScore =
      relaxExits level eNode curNodeName rest
        (pqEnqueue q e.2 ((alookup gScore curNodeName).getD 0 + nextNode.size.getD 1 +
          getHeuristic e.2 eNode level))
        (aset cameFrom e.2 (some curNodeName))
        (aset gScore e.2 ((alookup gScore curNodeName).getD 0 + nextNode.size.getD 1)) := by
  simp [relaxExits, hnext, hg]

theorem relaxExits_cons_improve (level : Level) (eNode curNodeName : String)
    (e : String × String) (rest : List (String × String)) (q : List (String × Nat))
    (cameFrom : List (String × Option String)) (gScore : List (String × Nat))
    {nextNode : LevelNode} (hnext : alookup level e.2 = some nextNode)
    {gNext : Nat} (hg : alookup gScore e.2 = some gNext)
    (hlt : (alookup gScore curNodeName).getD 0 + nextNode.size.getD 1 < gNext) :
    relaxExits level eNode curNodeName (e :: rest) q cameFrom gScore =
      relaxExits level eNode curNodeName rest
        (pqEnqueue q e.2 ((alookup gScore curNodeName).getD 0 + nextNode.size.getD 1 +
          getHeuristic e.2 eNode level))
        (aset cameFrom e.2 (some curNodeName))
        (aset gScore e.2 ((alookup gScore curNodeName).getD 0 + nextNode.size.getD 1)) := by
  simp [relaxExits, hnext, hg, hlt]

theorem relaxExits_cons_skip (level : Level) (eNode curNodeName : String)
    (e : String × String) (rest : List (String × String)) (q : List (String × Nat))
    (cameFrom : List (String × Option String)) (gScore : List (String × Nat))
    {nextNode : LevelNode} (hnext : alookup level e.2 = some nextNode)
    {gNext : Nat} (hg : alookup gScore e.2 = some gNext)
    (hge : ¬ (alookup gScore curNodeName).getD 0 + nextNode.size.getD 1 < gNext) :
    relaxExits level eNode curNodeName (e :: rest) q cameFrom gScore =
      relaxExits level eNode curNodeName rest q cameFrom gScore := by
  simp [relaxExits, hnext, hg, hge]

/-- Effect of the relaxation fold on the termination measure: the unassigned
key count never grows, and when it stays put, either some recorded score
strictly shrank or nothing changed at all. -/
theorem relaxExits_measure (level : Level) (eNode curNodeName : String) :
    ∀ (exits : List (String × String)) (q : List (String × Nat))
      (cameFrom : List (String × Option String)) (gScore : List (String × Nat))
      (q' : List (String × Nat)) (cameFrom' : List (String × Option String))
      (gScore' : List (String × Nat)),
      relaxExits level eNode curNodeName exits q cameFrom gScore =
        .ok (q', cameFrom', gScore') →
      gUnassigned level gScore' ≤ gUnassigned level gScore ∧
      (gUnassigned level gScore' = gUnassigned level gScore →
        (gSum gScore' < gSum gScore ∨ (gSum gScore' = gSum gScore ∧ q' = q))) := by
  intro exits
  induction exits with
  | nil =>
    intro q cameFrom gScore q' cameFrom' gScore' h
    simp only [relaxExits] at h
    obtain ⟨h1, h2, h3⟩ : q = q' ∧ cameFrom = cameFrom' ∧ gScore = gScore' := by
      cases h; exact ⟨rfl, rfl, rfl⟩
    subst h1; subst h2; subst h3
    exact ⟨le_refl _, fun _ => Or.inr ⟨rfl, rfl⟩⟩
  | cons e rest ih =>
    intro q cameFrom gScore q' cameFrom' gScore' h
    cases hnext : alookup level e.2 with
    | none =>
      rw [relaxExits_cons_missing level eNode curNodeName e rest q cameFrom gScore hnext] at h
      cases h
    | some nextNode =>
      cases hg : alookup gScore e.2 with
      | none =>
        rw [relaxExits_cons_fresh level eNode curNodeName e rest q cameFrom gScore
          hnext hg] at h
        have hlt := gUnassigned_aset_lt level (g := gScore) (k := e.2)
          (mem_akeys_of_alookup hnext) (by simp [ahas, hg])
          ((alookup gScore curNodeName).getD 0 + nextNode.size.getD 1)
        obtain ⟨ha, _⟩ := ih _ _ _ _ _ _ h
        constructor
        · exact le_trans ha (le_of_lt hlt)
        · intro heq
          exfalso
          have := lt_of_le_of_lt ha hlt
          omega
      | some gNext =>
        by_cases himp : (alookup gScore curNodeName).getD 0 + nextNode.size.getD 1 < gNext
        · rw [relaxExits_cons_improve level eNode curNodeName e rest q cameFrom gScore
            hnext hg himp] at h
          have heqU := gUnassigned_aset_of_has level (g := gScore) (k := e.2)
            (by simp [ahas, hg])
            ((alookup gScore curNodeName).getD 0 + nextNode.size.getD 1)
          have hsum := gSum_aset_existing hg
            ((alookup gScore curNodeName).getD 0 + nextNode.size.getD 1)
          obtain ⟨ha, hb⟩ := ih _ _ _ _ _ _ h
          rw [heqU] at ha hb
          refine ⟨ha, fun heq => ?_⟩
          rcases hb heq with h1 | ⟨h1, -⟩
          · left; omega
          · left; omega
        · rw [relaxExits_cons_skip level eNode curNodeName e rest q cameFrom gScore
            hnext hg himp] at h
          exact ih _ _ _ _ _ _ h

/-- The main A* loop of `findPath` (server/pathfinding.ts lines 134–186):
dequeue the lowest-f node; stop when it is the end node; fail when it is
missing from the level; otherwise relax all its exits and continue.  The
loop's state on exit (normally or via the break) is the `cameFrom`/`gScore`
pair that path reconstruction consumes. -/
def astarLoop (level : Level) (eNode : String) :
    List (String × Nat) → List (String × Option String) → List (String × Nat) →
    Except PathError (List (String × Option String) × List (String × Nat))
  | [], cameFrom, gScore => .ok (cameFrom, gScore)
  | (curNodeName, _) :: restQ, cameFrom, gScore =>
    if curNodeName = eNode then .ok (cameFrom, gScore)
    else
      match alookup level curNodeName with
      | none => .error .internalGraphConsistency
      | some curNode =>
        match hrel : relaxExits level eNode curNodeName curNode.exits restQ
            cameFrom gScore with
        | .error err => .error err
        | .ok (q', cameFrom', gScore') => astarLoop level eNode q' cameFrom' gScore'
termination_by queue _ gScore =>
  (gUnassigned level gScore, gSum gScore, queue.length)
decreasing_by
  obtain ⟨ha, hb⟩ := relaxExits_measure level eNode curNodeName
    curNode.exits restQ cameFrom gScore q' cameFrom' gScore' hrel
  rcases lt_or_eq_of_le ha with h1 | h1
  · exact Prod.Lex.left _ _ h1
  · rw [h1]
    refine Prod.Lex.right _ ?_
    rcases hb h1 with h2 | ⟨h2, h3⟩
    · exact Prod.Lex.left _ _ h2
    · rw [h2, h3]
      exact Prod.Lex.right _ (Nat.lt_succ_self _)

/-- The backward walk over `cameFrom` links (server/pathfinding.ts lines
198–203): `while (current !== null) { path.unshift(current); current =
cameFrom.get(current)!; }`.  The embedding carries fuel; `findPath` passes
`cameFrom.length + 1`, which suffices because predecessor links strictly
decrease the recorded g-score, so the chain never revisits a name.  A missing
link (where the source's non-null assertion would crash) or exhausted fuel
(where the source would loop forever) is reported as `none`; both are proven
unreachable for states the A* loop produces. -/
def buildChain (cameFrom : List (String × Option String)) :
    Nat → String → List String → Option (List String)
  | 0, _, _ => none
  | fuel + 1, current, acc =>
    match alookup cameFrom current with
    | none => none
    | some none => some (current :: acc)
    | some (some prev) => buildChain cameFrom fuel prev (current :: acc)

/-- The direction-annotation scan of `findPath` (server/pathfinding.ts lines
220–236): among the previous node's exits leading to the current room, prefer
the first canonical key, else fall back to the first key found; `null` when
no exit matches. -/
def findDirection (prevNode : LevelNode) (currentNodeName : String) : Option String :=
  let matched := prevNode.exits.filter (fun p => p.2 = currentNodeName)
  match matched.find? (fun p => CANON_DIRS.contains p.1) with
  | some p => some p.1
  | none => matched.head?.map Prod.fst

/-- The path-annotation loop of `findPath` (server/pathfinding.ts lines
205–248) for the segments after the first: each needs the previous node to
still exist in the level. -/
def annotateRest (level : Level) (prevName : String) :
    List String → Except PathError (List PathSegment)
  | [] => .ok []
  | cur :: rest =>
    match alookup level prevName with
    | none => .error .internalGraphConsistency
    | some prevNode =>
      match annotateRest level cur rest with
      | .error err => .error err
      | .ok segs =>
        .ok ({ nodeName := cur, directionFromPrevious := findDirection prevNode cur } :: segs)

/-- Builds the detailed path: the first segment has no direction, later
segments are annotated with the direction used to enter them. -/
def annotatePath (level : Level) : List String → Except PathError (List PathSegment)
  | [] => .ok []
  | first :: rest =>
    match annotateRest level first rest with
    | .error err => .error err
    | .ok segs => .ok ({ nodeName := first, directionFromPrevious := none } :: segs)

/-- `findPath` (server/pathfinding.ts lines 101–252): the A* search.
Same-node queries succeed immediately; a missing endpoint is
`StartOrEndNodeNotFoundError`; after the loop, an end node without a
predecessor entry is `NoPathFoundError`; otherwise the predecessor chain is
walked backwards and annotated with directions. -/
def findPath (level : Level) (sNode eNode : String) :
    Except PathError (List PathSegment) :=
  if sNode = eNode then
    .ok [{ nodeName := sNode, directionFromPrevious := none }]
  else if !(ahas level sNode) || !(ahas level eNode) then
    .error .startOrEndNodeNotFound
  else
    match astarLoop level eNode [(sNode, 0 + getHeuristic sNode eNode level)]
        [(sNode, none)] [(sNode, 0)] with
    | .error err => .error err
    | .ok (cameFrom, _) =>
      if !(ahas cameFrom eNode) then .error .noPathFound
      else
        match buildChain cameFrom (cameFrom.length + 1) eNode [] with
        | none => .error .internalGraphConsistency
        | some path => annotatePath level path

/-- Cost of entering a room: its `size`, defaulting to 1 (the cost model of
server/pathfinding.ts line 169). -/
def nodeCost (level : Level) (n : String) : Nat :=
  match alookup level n with
  | some nd => nd.size.getD 1
  | none => 1

/-- Room-weighted cost of a route: the sum of the sizes of every room
entered after the start. -/
def routeCost (level : Level) (r : List String) : Nat :=
  ((r.drop 1).map (nodeCost level)).sum

/-- Room-weighted cost of a returned path. -/
def pathCost (level : Level) (segs : List PathSegment) : Nat :=
  routeCost level (segs.map PathSegment.nodeName)

/-- A route through the level from `s` to `e`: a nonempty list of rooms all
present in the level, starting at `s`, ending at `e`, consecutive rooms
linked by an exit (of any key). -/
inductive Chain (level : Level) : String → String → List String → Prop
  | single {a : String} {nd : LevelNode} :
      alookup level a = some nd → Chain level a a [a]
  | cons {a c : String} {rest : List String} {b : String} {nd : LevelNode} :
      alookup level a = some nd → b ∈ nd.exits.map Prod.snd →
      Chain level b c rest → Chain level a c (a :: rest)

/-! ### Claims C2 and C3 — `findPath` endpoint handling -/

/-- C2 (counterexample): the claim demands `StartOrEndNodeNotFoundError`
whenever an endpoint is absent, but `findPath` checks `sNode == eNode` first
and succeeds on a same-name query for a room that does not exist at all. -/
theorem findPath_absent_cex :
    alookup ([] : Level) "Zed" = none ∧
    findPath ([] : Level) "Zed" "Zed" =
      .ok [{ nodeName := "Zed", directionFromPrevious := none }] :=
  ⟨rfl, rfl⟩

/-- C2 (amended): for every level graph and every pair of *distinct* room
names `s` and `e`, if `s` or `e` is absent from the graph then `findPath`
returns `StartOrEndNodeNotFoundError`; when `s = e` the same-node special
case fires first and `findPath` succeeds without consulting the graph. -/
theorem findPath_absent_spec (level : Level) (s e : String) (hne : s ≠ e)
    (h : alookup level s = none ∨ alookup level e = none) :
    findPath level s e = .error .startOrEndNodeNotFound := by
  unfold findPath
  rw [if_neg hne, if_pos]
  rcases h with h | h <;> simp [ahas, h]

/-- C2 witness: a concrete graph with only "Barbican", asked for a path to
the absent "Crypt". -/
theorem findPath_absent_spec_witness :
    findPath [("Barbican", { name := "Barbican", exits := [] })] "Barbican" "Crypt" =
      .error .startOrEndNodeNotFound :=
  findPath_absent_spec _ "Barbican" "Crypt" (by decide) (Or.inr rfl)

/-- C3: for every level graph and room name `A`, `findPath level A A`
returns a successful single-segment path naming `A` with a null direction,
and that path's room-weighted cost is zero. -/
theorem findPath_self_spec (level : Level) (A : String) :
    findPath level A A = .ok [{ nodeName := A, directionFromPrevious := none }] ∧
    pathCost level [{ nodeName := A, directionFromPrevious := none }] = 0 := by
  constructor
  · unfold findPath
    rw [if_pos rfl]
  · rfl

/-! ### Claim C1 — cost-optimality of `findPath`

The search is A* with a Manhattan heuristic read off stored coordinates.
Stored coordinates need not make the heuristic admissible (grid conflicts are
tolerated by `inferNodeCoordinates`), and then the returned route can cost
more than the cheapest one — the counterexample below exhibits this.  When
every room lacks coordinates, `getHeuristic` is constantly zero, the search
degrades to Dijkstra, and optimality holds; this is proven below for levels
satisfying the spec's data-model invariants (positive sizes, no dangling
exit targets). -/

theorem pqInsert_mem_of_mem {q : List (String × Nat)} {a x : String × Nat}
    (h : a ∈ q) : a ∈ pqInsert x q := by
  induction q with
  | nil => simp at h
  | cons y ys ih =>
    rcases List.mem_cons.mp h with rfl | h'
    · unfold pqInsert
      split
      · exact List.mem_cons_self _ _
      · exact List.mem_cons_of_mem _ (List.mem_cons_self _ _)
    · unfold pqInsert
      split
      · exact List.mem_cons_of_mem _ (ih h')
      · exact List.mem_cons_of_mem _ (List.mem_cons_of_mem _ h')

theorem pqInsert_mem_self (x : String × Nat) (q : List (String × Nat)) :
    x ∈ pqInsert x q := by
  induction q with
  | nil => simp [pqInsert]
  | cons y ys ih =>
    unfold pqInsert
    split
    · exact List.mem_cons_of_mem _ ih
    · exact List.mem_cons_self _ _

theorem mem_pqInsert {q : List (String × Nat)} {a x : String × Nat}
    (h : a ∈ pqInsert x q) : a = x ∨ a ∈ q := by
  induction q with
  | nil => simpa [pqInsert] using h
  | cons y ys ih =>
    unfold pqInsert at h
    split at h
    · rcases List.mem_cons.mp h with rfl | h'
      · exact Or.inr (List.mem_cons_self _ _)
      · rcases ih h' with h'' | h''
        · exact Or.inl h''
        · exact Or.inr (List.mem_cons_of_mem _ h'')
    · rcases List.mem_cons.mp h with rfl | h'
      · exact Or.inl rfl
      · exact Or.inr h'

theorem pqInsert_pairwise {q : List (String × Nat)} (x : String × Nat)
    (h : q.Pairwise (fun a b => a.2 ≤ b.2)) :
    (pqInsert x q).Pairwise (fun a b => a.2 ≤ b.2) := by
  induction q with
  | nil => simp [pqInsert]
  | cons y ys ih =>
    rcases List.pairwise_cons.mp h with ⟨hy, hys⟩
    unfold pqInsert
    split
    · refine List.pairwise_cons.mpr ⟨?_, ih hys⟩
      intro b hb
      rcases mem_pqInsert hb with rfl | hb'
      · assumption
      · exact hy b hb'
    · rename_i hxy
      refine List.pairwise_cons.mpr ⟨?_, h⟩
      intro b hb
      rcases List.mem_cons.mp hb with rfl | hb'
      · omega
      · exact le_trans (by omega) (hy b hb')

theorem routeCost_cons_cons (level : Level) (a b : String) (r : List String) :
    routeCost level (a :: b :: r) = nodeCost level b + routeCost level (b :: r) := by
  simp [routeCost]

theorem routeCost_append_one (level : Level) {r : List String} (hr : r ≠ [])
    (n : String) :
    routeCost level (r ++ [n]) = routeCost level r + nodeCost level n := by
  cases r with
  | nil => exact absurd rfl hr
  | cons a rest =>
    simp [routeCost]

theorem Chain.first_mem {level : Level} {a b : String} {r : List String}
    (h : Chain level a b r) : ∃ nd, alookup level a = some nd := by
  cases h with
  | single hnd => exact ⟨_, hnd⟩
  | cons hnd _ _ => exact ⟨_, hnd⟩

theorem Chain.ne_nil {level : Level} {a b : String} {r : List String}
    (h : Chain level a b r) : r ≠ [] := by
  cases h <;> simp

theorem Chain.head_eq {level : Level} {a b : String} {r : List String}
    (h : Chain level a b r) : ∃ rest, r = a :: rest := by
  cases h with
  | single _ => exact ⟨[], rfl⟩
  | cons _ _ _ => exact ⟨_, rfl⟩

theorem Chain.mem_level {level : Level} {a b : String} {r : List String}
    (h : Chain level a b r) : ∀ n ∈ r, (alookup level n).isSome = true := by
  induction h with
  | single hnd =>
    intro n hn
    rcases List.mem_singleton.mp hn with rfl
    simp [hnd]
  | cons hnd hb hrest ih =>
    intro n hn
    rcases List.mem_cons.mp hn with rfl | hn'
    · simp [hnd]
    · exact ih n hn'

theorem Chain.append_one {level : Level} {a b n : String} {r : List String}
    (h : Chain level a b r) {ndb : LevelNode} (hndb : alookup level b = some ndb)
    (hn : n ∈ ndb.exits.map Prod.snd) {ndn : LevelNode}
    (hndn : alookup level n = some ndn) :
    Chain level a n (r ++ [n]) := by
  induction h with
  | single hnd =>
    rename_i a' nd'
    have : nd' = ndb := by
      rw [hnd] at hndb
      exact Option.some.inj hndb
    subst this
    exact Chain.cons hnd hn (Chain.single hndn)
  | cons hnd hb hrest ih =>
    exact Chain.cons hnd hb (ih hndb)

theorem Chain.last_mem_level {level : Level} {a b : String} {r : List String}
    (h : Chain level a b r) : (alookup level b).isSome = true := by
  induction h with
  | single hnd => simp [hnd]
  | cons _ _ _ ih => exact ih

/-- Uniform positive sizes make a route's cost (length − 1) times the size. -/
theorem routeCost_uniform {level : Level} {c : Nat}
    (hc : ∀ p ∈ level, p.2.size.getD 1 = c) {a b : String} {r : List String}
    (h : Chain level a b r) : routeCost level r = (r.length - 1) * c := by
  induction h with
  | single hnd => simp [routeCost]
  | cons hnd hb hrest ih =>
    rename_i a' e' rest' b' nd'
    obtain ⟨rest0, hrest0⟩ := hrest.head_eq
    subst hrest0
    rw [routeCost_cons_cons]
    rw [ih]
    obtain ⟨ndb, hndb⟩ := hrest.first_mem
    have hcost : nodeCost level b' = c := by
      unfold nodeCost
      rw [hndb]
      exact hc (b', ndb) (mem_of_alookup hndb)
    rw [hcost]
    simp only [List.length_cons, Nat.add_sub_cancel]
    ring

/-- The invariants of the predecessor and score maps that path
reconstruction relies on. -/
structure ChainInv (level : Level) (sNode : String)
    (cameFrom : List (String × Option String)) (gScore : List (String × Nat)) :
    Prop where
  gstart : alookup gScore sNode = some 0
  cfstart : alookup cameFrom sNode = some none
  cfnone : ∀ n, alookup cameFrom n = some none → n = sNode
  chain : ∀ n c, alookup cameFrom n = some (some c) → ∃ gn gc ndc,
    alookup gScore n = some gn ∧ alookup gScore c = some gc ∧
    alookup level c = some ndc ∧ n ∈ ndc.exits.map Prod.snd ∧
    gc < gn ∧ gc + nodeCost level n ≤ gn
  keys : ∀ n, (alookup gScore n).isSome = (alookup cameFrom n).isSome
  inlevel : ∀ n, (alookup gScore n).isSome = true → (alookup level n).isSome = true

/-- The full loop invariant of the zero-heuristic A* (Dijkstra) run. -/
structure AInv (level : Level) (sNode : String) (queue : List (String × Nat))
    (cameFrom : List (String × Option String)) (gScore : List (String × Nat)) :
    Prop where
  base : ChainInv level sNode cameFrom gScore
  sorted : queue.Pairwise (fun a b => a.2 ≤ b.2)
  qdom : ∀ qe ∈ queue, ∃ g, alookup gScore qe.1 = some g ∧ g ≤ qe.2
  slack : ∀ n gn, alookup gScore n = some gn → ∀ nd, alookup level n = some nd →
    ∀ e ∈ nd.exits,
      (∃ gt, alookup gScore e.2 = some gt ∧ gt ≤ gn + nodeCost level e.2) ∨
      (∃ p, (n, p) ∈ queue ∧ p ≤ gn)

/-- With no dangling exit targets (the spec's graph-consistency invariant),
the relaxation fold cannot fail. -/
theorem relaxExits_ok (level : Level) (eNode u : String) (nd : LevelNode)
    (hnd : alookup level u = some nd)
    (Hcons : ∀ p ∈ level, ∀ e ∈ p.2.exits, (alookup level e.2).isSome = true) :
    ∀ (exits : List (String × String)), (∀ e ∈ exits, e ∈ nd.exits) →
    ∀ (q : List (String × Nat)) (cameFrom : List (String × Option String))
      (gScore : List (String × Nat)),
    ∃ q' cameFrom' gScore',
      relaxExits level eNode u exits q cameFrom gScore = .ok (q', cameFrom', gScore') := by
  intro exits
  induction exits with
  | nil => intro _ q cameFrom gScore; exact ⟨q, cameFrom, gScore, rfl⟩
  | cons e rest ih =>
    intro hex q cameFrom gScore
    have hexr : ∀ e' ∈ rest, e' ∈ nd.exits := fun e' h => hex e' (List.mem_cons_of_mem _ h)
    have hmem : (alookup level e.2).isSome = true :=
      Hcons (u, nd) (mem_of_alookup hnd) e (hex e (List.mem_cons_self _ _))
    cases hnext : alookup level e.2 with
    | none => rw [hnext] at hmem; simp at hmem
    | some nextNode =>
      cases hg : alookup gScore e.2 with
      | none =>
        rw [relaxExits_cons_fresh level eNode u e rest q cameFrom gScore hnext hg]
        exact ih hexr _ _ _
      | some gNext =>
        by_cases himp : (alookup gScore u).getD 0 + nextNode.size.getD 1 < gNext
        · rw [relaxExits_cons_improve level eNode u e rest q cameFrom gScore hnext hg himp]
          exact ih hexr _ _ _
        · rw [relaxExits_cons_skip level eNode u e rest q cameFrom gScore hnext hg himp]
          exact ih hexr _ _ _

/-- The zero-heuristic relaxation fold preserves the Dijkstra invariant:
processing all exits of the dequeued node `u` restores the edge-slack
property for `u`, keeps queue entries dominating current scores, keeps the
predecessor chains valid, never loses a queued entry, and never increases a
recorded score. -/
theorem relaxExits_inv (level : Level) (sNode eNode : String)
    (Hh : ∀ a b, getHeuristic a b level = 0)
    (Hpos : ∀ p ∈ level, 1 ≤ p.2.size.getD 1)
    (u : String) (nd : LevelNode) (hnd : alookup level u = some nd) (gu : Nat) :
    ∀ (exits : List (String × String)), (∀ e ∈ exits, e ∈ nd.exits) →
    ∀ (q : List (String × Nat)) (cameFrom : List (String × Option String))
      (gScore : List (String × Nat)),
    alookup gScore u = some gu →
    ChainInv level sNode cameFrom gScore →
    q.Pairwise (fun a b => a.2 ≤ b.2) →
    (∀ qe ∈ q, ∃ g, alookup gScore qe.1 = some g ∧ g ≤ qe.2) →
    (∀ n gn, alookup gScore n = some gn → ∀ nd', alookup level n = some nd' →
      ∀ e ∈ nd'.exits,
        (n = u ∧ e ∈ exits) ∨
        (∃ gt, alookup gScore e.2 = some gt ∧ gt ≤ gn + nodeCost level e.2) ∨
        (∃ p, (n, p) ∈ q ∧ p ≤ gn)) →
    ∀ q' cameFrom' gScore',
    relaxExits level eNode u exits q cameFrom gScore = .ok (q', cameFrom', gScore') →
    AInv level sNode q' cameFrom' gScore' ∧
    alookup gScore' u = some gu ∧
    (∀ qe ∈ q, qe ∈ q') ∧
    (∀ n gn, alookup gScore n = some gn → ∃ gn', alookup gScore' n = some gn' ∧ gn' ≤ gn) := by
  intro exits
  induction exits with
  | nil =>
    intro _ q cameFrom gScore hgu hCI hsort hdom hslack q' cameFrom' gScore' h
    obtain ⟨h1, h2, h3⟩ : q = q' ∧ cameFrom = cameFrom' ∧ gScore = gScore' := by
      simp only [relaxExits] at h
      cases h; exact ⟨rfl, rfl, rfl⟩
    subst h1; subst h2; subst h3
    refine ⟨⟨hCI, hsort, hdom, ?_⟩, hgu, fun qe hq => hq, fun n gn hg => ⟨gn, hg, le_refl _⟩⟩
    intro n gn hg nd' hnd' e he
    rcases hslack n gn hg nd' hnd' e he with ⟨-, h2⟩ | h2 | h2
    · simp at h2
    · exact Or.inl h2
    · exact Or.inr h2
  | cons e rest ih =>
    intro hex q cameFrom gScore hgu hCI hsort hdom hslack q' cameFrom' gScore' h
    have hexr : ∀ e' ∈ rest, e' ∈ nd.exits := fun e' h' => hex e' (List.mem_cons_of_mem _ h')
    have hemem : e ∈ nd.exits := hex e (List.mem_cons_self _ _)
    cases hnext : alookup level e.2 with
    | none =>
      rw [relaxExits_cons_missing level eNode u e rest q cameFrom gScore hnext] at h
      cases h
    | some nextNode =>
      have hgetD : (alookup gScore u).getD 0 = gu := by rw [hgu]; rfl
      have hcost1 : 1 ≤ nextNode.size.getD 1 :=
        Hpos (e.2, nextNode) (mem_of_alookup hnext)
      have hncost : nodeCost level e.2 = nextNode.size.getD 1 := by
        unfold nodeCost; rw [hnext]
      -- common treatment of a successful relaxation (fresh or improving)
      have main : ∀ (hne_t_u : e.2 ≠ u) (hne_t_s : e.2 ≠ sNode)
          (hold : ∀ gNext, alookup gScore e.2 = some gNext →
            gu + nextNode.size.getD 1 < gNext),
          relaxExits level eNode u rest
            (pqEnqueue q e.2 (gu + nextNode.size.getD 1 +
              getHeuristic e.2 eNode level))
            (aset cameFrom e.2 (some u))
            (aset gScore e.2 (gu + nextNode.size.getD 1)) =
            .ok (q', cameFrom', gScore') →
          AInv level sNode q' cameFrom' gScore' ∧
          alookup gScore' u = some gu ∧
          (∀ qe ∈ q, qe ∈ q') ∧
          (∀ n gn, alookup gScore n = some gn →
            ∃ gn', alookup gScore' n = some gn' ∧ gn' ≤ gn) := by
        intro hne_t_u hne_t_s hold hrec
        set t := e.2 with ht
        set tent := gu + nextNode.size.getD 1 with htent
        rw [Hh t eNode, Nat.add_zero] at hrec
        set g2 := aset gScore t tent with hg2
        set cf2 := aset cameFrom t (some u) with hcf2
        set q2 := pqEnqueue q t tent with hq2
        have hgu2 : alookup g2 u = some gu := by
          rw [hg2, alookup_aset_of_ne _ (Ne.symm hne_t_u)]; exact hgu
        have hgt2 : alookup g2 t = some tent := by
          rw [hg2, alookup_aset_self]
        have hg2_of_ne : ∀ n, n ≠ t → alookup g2 n = alookup gScore n := by
          intro n hn; rw [hg2, alookup_aset_of_ne _ hn]
        have hcf2_of_ne : ∀ n, n ≠ t → alookup cf2 n = alookup cameFrom n := by
          intro n hn; rw [hcf2, alookup_aset_of_ne _ hn]
        have hstep_mono : ∀ n gn, alookup gScore n = some gn →
            ∃ gn', alookup g2 n = some gn' ∧ gn' ≤ gn := by
          intro n gn hg
          by_cases hn : n = t
          · subst hn
            exact ⟨tent, hgt2, le_of_lt (hold gn hg)⟩
          · exact ⟨gn, by rw [hg2_of_ne n hn]; exact hg, le_refl _⟩
        have hCI2 : ChainInv level sNode cf2 g2 := by
          refine ⟨?_, ?_, ?_, ?_, ?_, ?_⟩
          · rw [hg2_of_ne sNode (Ne.symm hne_t_s)]; exact hCI.gstart
          · rw [hcf2_of_ne sNode (Ne.symm hne_t_s)]; exact hCI.cfstart
          · intro n hn
            by_cases hnt : n = t
            · subst hnt
              rw [hcf2, alookup_aset_self] at hn
              cases hn
            · rw [hcf2_of_ne n hnt] at hn
              exact hCI.cfnone n hn
          · intro n c hc
            by_cases hnt : n = t
            · subst hnt
              rw [hcf2, alookup_aset_self] at hc
              have hcu : c = u := by
                have := Option.some.inj hc
                exact (Option.some.inj this).symm
              subst hcu
              refine ⟨tent, gu, nd, hgt2, hgu2, hnd, ?_, ?_, ?_⟩
              · exact List.mem_map.mpr ⟨e, hemem, rfl⟩
              · omega
              · rw [hncost]
            · rw [hcf2_of_ne n hnt] at hc
              obtain ⟨gn, gc, ndc, h1, h2, h3, h4, h5, h6⟩ := hCI.chain n c hc
              by_cases hct : c = t
              · subst hct
                have hgc : gu + nextNode.size.getD 1 < gc := hold gc h2
                refine ⟨gn, tent, ndc, ?_, hgt2, h3, h4, ?_, ?_⟩
                · rw [hg2_of_ne n hnt]; exact h1
                · omega
                · omega
              · refine ⟨gn, gc, ndc, ?_, ?_, h3, h4, h5, h6⟩
                · rw [hg2_of_ne n hnt]; exact h1
                · rw [hg2_of_ne c hct]; exact h2
          · intro n
            by_cases hnt : n = t
            · subst hnt
              rw [hgt2, hcf2, alookup_aset_self]
              rfl
            · rw [hg2_of_ne n hnt, hcf2_of_ne n hnt]
              exact hCI.keys n
          · intro n hn
            by_cases hnt : n = t
            · subst hnt
              simp [hnext]
            · rw [hg2_of_ne n hnt] at hn
              exact hCI.inlevel n hn
        have hsort2 : q2.Pairwise (fun a b => a.2 ≤ b.2) :=
          pqInsert_pairwise _ hsort
        have hdom2 : ∀ qe ∈ q2, ∃ g, alookup g2 qe.1 = some g ∧ g ≤ qe.2 := by
          intro qe hqe
          rcases mem_pqInsert hqe with h1 | h1
          · rw [h1]
            exact ⟨tent, hgt2, le_refl _⟩
          · obtain ⟨g0, hg0, hle⟩ := hdom qe h1
            obtain ⟨g1, hg1, hle1⟩ := hstep_mono qe.1 g0 hg0
            exact ⟨g1, hg1, le_trans hle1 hle⟩
        have hslack2 : ∀ n gn, alookup g2 n = some gn → ∀ nd', alookup level n = some nd' →
            ∀ e' ∈ nd'.exits,
              (n = u ∧ e' ∈ rest) ∨
              (∃ gt, alookup g2 e'.2 = some gt ∧ gt ≤ gn + nodeCost level e'.2) ∨
              (∃ p, (n, p) ∈ q2 ∧ p ≤ gn) := by
          intro n gn hg nd' hnd' e' he'
          by_cases hnt : n = t
          · subst hnt
            right; right
            refine ⟨tent, pqInsert_mem_self _ _, ?_⟩
            rw [hgt2] at hg
            have : tent = gn := Option.some.inj hg
            omega
          · rw [hg2_of_ne n hnt] at hg
            rcases hslack n gn hg nd' hnd' e' he' with ⟨hnu, hmem⟩ | h2 | h2
            · rcases List.mem_cons.mp hmem with h3 | h3
              · subst hnu
                right; left
                refine ⟨tent, ?_, ?_⟩
                · rw [h3, ← ht]
                  exact hgt2
                · have hgn : gn = gu := by
                    rw [hgu] at hg
                    exact (Option.some.inj hg).symm
                  rw [h3, ← ht, hncost, hgn]
              · exact Or.inl ⟨hnu, h3⟩
            · obtain ⟨gt, hgt, hle⟩ := h2
              obtain ⟨gt2, hgt2', hle2⟩ := hstep_mono e'.2 gt hgt
              exact Or.inr (Or.inl ⟨gt2, hgt2', le_trans hle2 hle⟩)
            · obtain ⟨p, hp, hle⟩ := h2
              exact Or.inr (Or.inr ⟨p, pqInsert_mem_of_mem hp, hle⟩)
        obtain ⟨hAI, hgu', hqmem, hmono⟩ :=
          ih hexr q2 cf2 g2 hgu2 hCI2 hsort2 hdom2 hslack2 q' cameFrom' gScore' hrec
        refine ⟨hAI, hgu', ?_, ?_⟩
        · intro qe hq
          exact hqmem qe (pqInsert_mem_of_mem hq)
        · intro n gn hg
          obtain ⟨g1, hg1, hle1⟩ := hstep_mono n gn hg
          obtain ⟨g2', hg2', hle2⟩ := hmono n g1 hg1
          exact ⟨g2', hg2', le_trans hle2 hle1⟩
      cases hg : alookup gScore e.2 with
      | none =>
        rw [relaxExits_cons_fresh level eNode u e rest q cameFrom gScore hnext hg,
          hgetD] at h
        have hne_t_u : e.2 ≠ u := by
          intro he'
          rw [he', hgu] at hg
          cases hg
        have hne_t_s : e.2 ≠ sNode := by
          intro he'
          rw [he', hCI.gstart] at hg
          cases hg
        exact main hne_t_u hne_t_s (fun gNext hgN => by rw [hgN] at hg; cases hg) h
      | some gNext =>
        by_cases himp : (alookup gScore u).getD 0 + nextNode.size.getD 1 < gNext
        · rw [relaxExits_cons_improve level eNode u e rest q cameFrom gScore hnext hg himp,
            hgetD] at h
          rw [hgetD] at himp
          have hne_t_u : e.2 ≠ u := by
            intro he'
            rw [he', hgu] at hg
            have : gu = gNext := Option.some.inj hg
            omega
          have hne_t_s : e.2 ≠ sNode := by
            intro he'
            rw [he', hCI.gstart] at hg
            have : (0 : Nat) = gNext := Option.some.inj hg
            omega
          refine main hne_t_u hne_t_s ?_ h
          intro gN hgN
          rw [hgN] at hg
          have : gN = gNext := Option.some.inj hg
          omega
        · rw [relaxExits_cons_skip level eNode u e rest q cameFrom gScore hnext hg himp] at h
          rw [hgetD] at himp
          refine ih hexr q cameFrom gScore hgu hCI hsort hdom ?_ q' cameFrom' gScore' h
          intro n gn hgn nd' hnd' e' he'
          rcases hslack n gn hgn nd' hnd' e' he' with ⟨hnu, hmem⟩ | h2 | h2
          · rcases List.mem_cons.mp hmem with h3 | h3
            · subst hnu
              right; left
              refine ⟨gNext, ?_, ?_⟩
              · rw [h3]; exact hg
              · have hgn' : gn = gu := by
                  rw [hgu] at hgn
                  exact (Option.some.inj hgn).symm
                rw [h3, hncost, hgn']
                omega
            · exact Or.inl ⟨hnu, h3⟩
          · exact Or.inr (Or.inl h2)
          · exact Or.inr (Or.inr h2)

/-- Forward propagation of score bounds along a route: starting from a
scored node, every route either ends at a scored node whose score is within
the route's cost, or passes through a node still waiting in the queue with a
priority within the route's cost. -/
theorem chain_queue_bound (level : Level) (sNode : String)
    (queue : List (String × Nat)) (cameFrom : List (String × Option String))
    (gScore : List (String × Nat))
    (hinv : AInv level sNode queue cameFrom gScore) :
    ∀ (a z : String) (r : List String), Chain level a z r →
    ∀ ga, alookup gScore a = some ga →
      (∃ gz, alookup gScore z = some gz ∧ gz ≤ ga + routeCost level r) ∨
      (∃ n pn, (n, pn) ∈ queue ∧ pn ≤ ga + routeCost level r) := by
  intro a z r hchain
  induction hchain with
  | single hnd =>
    intro ga hga
    exact Or.inl ⟨ga, hga, by simp [routeCost]⟩
  | cons hnd hb hrest ih =>
    rename_i a' b' rest' z' nd'
    intro ga hga
    obtain ⟨rest0, hrest0⟩ := hrest.head_eq
    subst hrest0
    rw [routeCost_cons_cons]
    obtain ⟨e, hemem, he2⟩ := List.mem_map.mp hb
    rcases hinv.slack a' ga hga nd' hnd e hemem with ⟨gt, hgt, hle⟩ | ⟨p, hp, hle⟩
    · rw [he2] at hgt hle
      rcases ih gt hgt with ⟨gz, hgz, hgzle⟩ | ⟨n, pn, hpn, hpnle⟩
      · exact Or.inl ⟨gz, hgz, by omega⟩
      · exact Or.inr ⟨n, pn, hpn, by omega⟩
    · refine Or.inr ⟨a', p, hp, ?_⟩
      omega

/-- The zero-heuristic A* loop run from a state satisfying the Dijkstra
invariant succeeds, its final predecessor/score maps satisfy the chain
invariant, and the final score of the end node is a lower bound on the cost
of every route from the start to the end node. -/
theorem astarLoop_spec (level : Level) (sNode eNode : String)
    (Hh : ∀ a b, getHeuristic a b level = 0)
    (Hpos : ∀ p ∈ level, 1 ≤ p.2.size.getD 1)
    (Hcons : ∀ p ∈ level, ∀ e ∈ p.2.exits, (alookup level e.2).isSome = true) :
    ∀ (queue : List (String × Nat)) (cameFrom : List (String × Option String))
      (gScore : List (String × Nat)),
    AInv level sNode queue cameFrom gScore →
    ∃ cf g, astarLoop level eNode queue cameFrom gScore = .ok (cf, g) ∧
      ChainInv level sNode cf g ∧
      (∀ r, Chain level sNode eNode r →
        ∃ ge, alookup g eNode = some ge ∧ ge ≤ routeCost level r) := by
  intro queue cameFrom gScore
  induction queue, cameFrom, gScore using astarLoop.induct level eNode with
  | case1 cameFrom gScore =>
    intro hinv
    refine ⟨cameFrom, gScore, by rw [astarLoop], hinv.base, ?_⟩
    intro r hr
    rcases chain_queue_bound level sNode [] cameFrom gScore hinv sNode eNode r hr
        0 hinv.base.gstart with ⟨ge, hge, hle⟩ | ⟨n, pn, hpn, _⟩
    · exact ⟨ge, hge, by omega⟩
    · simp at hpn
  | case2 p restQ cameFrom gScore =>
    intro hinv
    refine ⟨cameFrom, gScore, by rw [astarLoop]; rw [if_pos rfl], hinv.base, ?_⟩
    intro r hr
    obtain ⟨ge, hge, hgep⟩ := hinv.qdom (eNode, p) (List.mem_cons_self _ _)
    rcases chain_queue_bound level sNode _ cameFrom gScore hinv sNode eNode r hr
        0 hinv.base.gstart with ⟨ge', hge', hle⟩ | ⟨n, pn, hpn, hle⟩
    · exact ⟨ge', hge', by omega⟩
    · refine ⟨ge, hge, ?_⟩
      rcases List.mem_cons.mp hpn with h1 | h1
      · have hpn2 : pn = p := by
          have := congrArg Prod.snd h1
          simpa using this
        omega
      · have hsorted := List.pairwise_cons.mp hinv.sorted
        have hple : p ≤ pn := hsorted.1 (n, pn) h1
        omega
  | case3 curNodeName p restQ cameFrom gScore hne hnone =>
    intro hinv
    obtain ⟨gc, hgc, _⟩ := hinv.qdom (curNodeName, p) (List.mem_cons_self _ _)
    have : (alookup level curNodeName).isSome = true :=
      hinv.base.inlevel curNodeName (by rw [hgc]; rfl)
    rw [hnone] at this
    cases this
  | case4 curNodeName p restQ cameFrom gScore hne curNode hcur err herr =>
    intro hinv
    obtain ⟨q', cf', g', hok⟩ :=
      relaxExits_ok level eNode curNodeName curNode hcur Hcons curNode.exits
        (fun e he => he) restQ cameFrom gScore
    rw [hok] at herr
    cases herr
  | case5 curNodeName p restQ cameFrom gScore hne curNode hcur q' cameFrom' gScore' hrel ih =>
    intro hinv
    obtain ⟨gu, hgu, hgup⟩ := hinv.qdom (curNodeName, p) (List.mem_cons_self _ _)
    have hsortr : restQ.Pairwise (fun a b => a.2 ≤ b.2) :=
      (List.pairwise_cons.mp hinv.sorted).2
    have hdomr : ∀ qe ∈ restQ, ∃ g, alookup gScore qe.1 = some g ∧ g ≤ qe.2 :=
      fun qe hqe => hinv.qdom qe (List.mem_cons_of_mem _ hqe)
    have hslackr : ∀ n gn, alookup gScore n = some gn →
        ∀ nd', alookup level n = some nd' → ∀ e ∈ nd'.exits,
          (n = curNodeName ∧ e ∈ curNode.exits) ∨
          (∃ gt, alookup gScore e.2 = some gt ∧ gt ≤ gn + nodeCost level e.2) ∨
          (∃ pq, (n, pq) ∈ restQ ∧ pq ≤ gn) := by
      intro n gn hgn nd' hnd' e he
      rcases hinv.slack n gn hgn nd' hnd' e he with h1 | ⟨pq, hpq, hple⟩
      · exact Or.inr (Or.inl h1)
      · rcases List.mem_cons.mp hpq with h2 | h2
        · have hncur : n = curNodeName := by
            have := congrArg Prod.fst h2
            simpa using this
          subst hncur
          rw [hnd'] at hcur
          have : nd' = curNode := Option.some.inj hcur
          subst this
          exact Or.inl ⟨rfl, he⟩
        · exact Or.inr (Or.inr ⟨pq, h2, hple⟩)
    obtain ⟨hAI, -, -, -⟩ :=
      relaxExits_inv level sNode eNode Hh Hpos curNodeName curNode hcur gu
        curNode.exits (fun e he => he) restQ cameFrom gScore hgu hinv.base
        hsortr hdomr hslackr q' cameFrom' gScore' hrel
    obtain ⟨cf, g, hres, hci, hmin⟩ := ih hAI
    refine ⟨cf, g, ?_, hci, hmin⟩
    rw [astarLoop, if_neg hne, hcur]
    split
    next heq => cases heq
    next cn heq =>
      have hcn : cn = curNode := (Option.some.inj heq).symm
      subst hcn
      split
      next err herr => rw [hrel] at herr; cases herr
      next a b c hok => rw [hrel] at hok; cases hok; exact hres

theorem mem_keys_of_alookup {β : Type} {l : List (String × β)} {k : String} {v : β}
    (h : alookup l k = some v) : k ∈ l.map Prod.fst :=
  List.mem_map.mpr ⟨(k, v), mem_of_alookup h, rfl⟩

/-- Walking the predecessor links from any scored node reaches the start:
the walk terminates within any fuel at least the route's length, the route
is a genuine chain from the start, its cost is bounded by the node's score,
and it never repeats a room (scores strictly decrease along it). -/
theorem buildChain_reaches (level : Level) (sNode : String)
    (cf : List (String × Option String)) (g : List (String × Nat))
    (hci : ChainInv level sNode cf g) :
    ∀ gn n, alookup g n = some gn → ∃ route,
      Chain level sNode n route ∧ routeCost level route ≤ gn ∧
      route.Nodup ∧
      (∀ m ∈ route, (alookup cf m).isSome = true) ∧
      (∀ m ∈ route, ∃ gm, alookup g m = some gm ∧ gm ≤ gn) ∧
      (∀ fuel acc, route.length ≤ fuel →
        buildChain cf fuel n acc = some (route ++ acc)) := by
  intro gn
  induction gn using Nat.strong_induction_on with
  | _ gn ih =>
    intro n hn
    have hkey : (alookup cf n).isSome = true := by
      rw [← hci.keys n, hn]; rfl
    cases hcf : alookup cf n with
    | none => rw [hcf] at hkey; cases hkey
    | some link =>
      cases link with
      | none =>
        have hns : n = sNode := hci.cfnone n hcf
        subst hns
        have hlvl : (alookup level n).isSome = true :=
          hci.inlevel n (by rw [hn]; rfl)
        cases hnd : alookup level n with
        | none => rw [hnd] at hlvl; cases hlvl
        | some nd =>
          refine ⟨[n], Chain.single hnd, by simp [routeCost], by simp, ?_, ?_, ?_⟩
          · intro m hm
            rcases List.mem_singleton.mp hm with rfl
            rw [hcf]; rfl
          · intro m hm
            rcases List.mem_singleton.mp hm with rfl
            exact ⟨gn, hn, le_refl _⟩
          · intro fuel acc hfuel
            cases fuel with
            | zero => simp at hfuel
            | succ f =>
              rw [buildChain, hcf]
              simp
      | some c =>
        obtain ⟨gn', gc, ndc, hgn', hgc, hndc, hmemc, hlt, hle⟩ := hci.chain n c hcf
        have hgneq : gn' = gn := by
          rw [hn] at hgn'
          exact (Option.some.inj hgn').symm
        rw [hgneq] at hlt hle
        obtain ⟨route, hchain, hcost, hnodup, hcfmem, hgmem, hfuel⟩ :=
          ih gc hlt c hgc
        have hlvln : (alookup level n).isSome = true :=
          hci.inlevel n (by rw [hn]; rfl)
        cases hndn : alookup level n with
        | none => rw [hndn] at hlvln; cases hlvln
        | some ndn =>
          have hnotin : n ∉ route := by
            intro hmem
            obtain ⟨gm, hgm, hgmle⟩ := hgmem n hmem
            rw [hn] at hgm
            have : gm = gn := (Option.some.inj hgm).symm
            omega
          refine ⟨route ++ [n], hchain.append_one hndc hmemc hndn, ?_, ?_, ?_, ?_, ?_⟩
          · rw [routeCost_append_one level hchain.ne_nil]
            omega
          · rw [show route ++ [n] = route ++ n :: [] from rfl, List.nodup_middle]
            simp only [List.append_nil]
            exact List.nodup_cons.mpr ⟨hnotin, hnodup⟩
          · intro m hm
            rcases List.mem_append.mp hm with h1 | h1
            · exact hcfmem m h1
            · rcases List.mem_singleton.mp h1 with rfl
              rw [hcf]; rfl
          · intro m hm
            rcases List.mem_append.mp hm with h1 | h1
            · obtain ⟨gm, hgm, hgmle⟩ := hgmem m h1
              exact ⟨gm, hgm, by omega⟩
            · rcases List.mem_singleton.mp h1 with rfl
              exact ⟨gn, hn, le_refl _⟩
          · intro fuel acc hfl
            rw [List.length_append, List.length_cons, List.length_nil] at hfl
            cases fuel with
            | zero => omega
            | succ f =>
              simp only [buildChain, hcf]
              rw [hfuel f (n :: acc) (by omega)]
              simp

/-- Every chain can be annotated: the direction scan never fails on a route
whose consecutive rooms are linked by exits. -/
theorem annotateRest_of_chain {level : Level} {a b : String} {r : List String}
    (h : Chain level a b r) :
    ∀ rest', r = a :: rest' →
    ∃ segs, annotateRest level a rest' = .ok segs ∧
      segs.map PathSegment.nodeName = rest' := by
  induction h with
  | single hnd =>
    intro rest' hr
    have : rest' = [] := by
      injection hr with h1 h2
      exact h2.symm
    subst this
    exact ⟨[], rfl, rfl⟩
  | cons hnd hb hrest ih =>
    rename_i a' b' rest' c' nd'
    intro rest'' hr
    have hr' : rest'' = rest' := by
      injection hr with h1 h2
      exact h2.symm
    subst hr'
    obtain ⟨rest0, hrest0⟩ := hrest.head_eq
    subst hrest0
    obtain ⟨segs, hsegs, hmap⟩ := ih rest0 rfl
    refine ⟨{ nodeName := c', directionFromPrevious := findDirection nd' c' } :: segs, ?_, ?_⟩
    · simp only [annotateRest, hnd, hsegs]
    · simp [hmap]

/-- A chain's full annotation: the first segment carries no direction, the
rest succeed, and the segment names are exactly the route. -/
theorem annotatePath_of_chain {level : Level} {a b : String} {r : List String}
    (h : Chain level a b r) :
    ∃ segs, annotatePath level r = .ok segs ∧
      segs.map PathSegment.nodeName = r := by
  obtain ⟨rest', hr⟩ := h.head_eq
  subst hr
  obtain ⟨segs, hsegs, hmap⟩ := annotateRest_of_chain h rest' rfl
  refine ⟨{ nodeName := a, directionFromPrevious := none } :: segs, ?_, ?_⟩
  · simp only [annotatePath, hsegs]
  · simp [hmap]

/-- When no room stores an x-coordinate, the Manhattan heuristic is
identically zero (`getHeuristic` falls back to 0 whenever either endpoint
lacks coordinates). -/
theorem getHeuristic_zero (level : Level)
    (HnoCoord : ∀ p ∈ level, p.2.x = none) :
    ∀ a b, getHeuristic a b level = 0 := by
  intro a b
  unfold getHeuristic
  cases hfa : alookup level a with
  | none => rfl
  | some fa =>
    cases hfb : alookup level b with
    | none => rfl
    | some fb =>
      have hx : fa.x = none := HnoCoord (a, fa) (mem_of_alookup hfa)
      simp [hx]

/-- The state `findPath` hands the A* loop satisfies the Dijkstra
invariant. -/
theorem AInv_init (level : Level) (sNode eNode : String)
    (Hh : ∀ a b, getHeuristic a b level = 0)
    (hs : (alookup level sNode).isSome = true) :
    AInv level sNode [(sNode, 0 + getHeuristic sNode eNode level)]
      [(sNode, none)] [(sNode, 0)] := by
  have hci : ChainInv level sNode [(sNode, none)] [(sNode, 0)] := by
    refine ⟨?_, ?_, ?_, ?_, ?_, ?_⟩
    · simp [alookup]
    · simp [alookup]
    · intro n hn
      by_cases h : n = sNode
      · exact h
      · simp [alookup, h] at hn
    · intro n c hc
      by_cases h : n = sNode
      · subst h
        simp [alookup] at hc
      · simp [alookup, h] at hc
    · intro n
      by_cases h : n = sNode <;> simp [alookup, h]
    · intro n hn
      by_cases h : n = sNode
      · subst h
        exact hs
      · simp [alookup, h] at hn
  refine ⟨hci, ?_, ?_, ?_⟩
  · simp
  · intro qe hqe
    rcases List.mem_singleton.mp hqe with rfl
    exact ⟨0, by simp [alookup], Nat.zero_le _⟩
  · intro n gn hg nd hnd e he
    by_cases h : n = sNode
    · subst h
      have hgn : gn = 0 := by
        simp [alookup] at hg
        omega
      right
      refine ⟨0 + getHeuristic n eNode level, List.mem_singleton.mpr rfl, ?_⟩
      rw [Hh, hgn]
    · simp [alookup, h] at hg

/-- C1 (amended): on a level graph where no room stores coordinates (so the
Manhattan heuristic degrades to zero and the search is Dijkstra), with the
spec's data-model invariants — every room size at least 1 and no exit
pointing at a missing room — `findPath` between distinct connected rooms
returns a genuine route from start to end whose room-weighted cost is
minimal among all routes; when sizes are uniform its hop count is also
minimal.  (With stored coordinates the heuristic can be inadmissible and
the returned route suboptimal — see the counterexample.) -/
theorem findPath_min (level : Level) (sNode eNode : String)
    (HnoCoord : ∀ p ∈ level, p.2.x = none)
    (Hpos : ∀ p ∈ level, 1 ≤ p.2.size.getD 1)
    (Hcons : ∀ p ∈ level, ∀ e ∈ p.2.exits, (alookup level e.2).isSome = true)
    (hne : sNode ≠ eNode)
    {r0 : List String} (hroute : Chain level sNode eNode r0) :
    ∃ segs, findPath level sNode eNode = .ok segs ∧
      Chain level sNode eNode (segs.map PathSegment.nodeName) ∧
      (∀ r, Chain level sNode eNode r → pathCost level segs ≤ routeCost level r) ∧
      (∀ c, (∀ p ∈ level, p.2.size.getD 1 = c) →
        ∀ r, Chain level sNode eNode r → segs.length ≤ r.length) := by
  have Hh := getHeuristic_zero level HnoCoord
  obtain ⟨nds, hnds⟩ := hroute.first_mem
  have hes : (alookup level eNode).isSome = true := hroute.last_mem_level
  have hinv0 := AInv_init level sNode eNode Hh (by rw [hnds]; rfl)
  obtain ⟨cf, g, hok, hci, hmin⟩ :=
    astarLoop_spec level sNode eNode Hh Hpos Hcons _ _ _ hinv0
  obtain ⟨ge, hge, hgele⟩ := hmin r0 hroute
  have hhase : ahas cf eNode = true := by
    unfold ahas
    rw [← hci.keys eNode, hge]
    rfl
  obtain ⟨route, hchain, hcost, hnodup, hcfmem, hgmem, hfuel⟩ :=
    buildChain_reaches level sNode cf g hci ge eNode hge
  have hsub : route ⊆ cf.map Prod.fst := by
    intro m hm
    have := hcfmem m hm
    cases hv : alookup cf m with
    | none => rw [hv] at this; cases this
    | some v => exact mem_keys_of_alookup hv
  have hlen : route.length ≤ cf.length + 1 := by
    have := (List.subperm_of_subset hnodup hsub).length_le
    rw [List.length_map] at this
    omega
  have hbc : buildChain cf (cf.length + 1) eNode [] = some route := by
    rw [hfuel (cf.length + 1) [] hlen]
    simp
  obtain ⟨segs, hsegs, hsmap⟩ := annotatePath_of_chain hchain
  have hcond : (!(ahas level sNode) || !(ahas level eNode)) = false := by
    have h1 : ahas level sNode = true := by simp [ahas, hnds]
    have h2 : ahas level eNode = true := hes
    rw [h1, h2]
    rfl
  refine ⟨segs, ?_, ?_, ?_, ?_⟩
  · unfold findPath
    rw [if_neg hne, if_neg (by rw [hcond]; simp)]
    simp only [hok, hhase, Bool.not_true, Bool.false_eq_true, if_false, hbc]
    exact hsegs
  · rw [hsmap]
    exact hchain
  · intro r hr
    obtain ⟨ge', hge', hle'⟩ := hmin r hr
    have hgee : ge' = ge := by
      rw [hge] at hge'
      exact (Option.some.inj hge').symm
    subst hgee
    unfold pathCost
    rw [hsmap]
    omega
  · intro c hc r hr
    have hc1 : 0 < c := by
      have h1 := Hpos (sNode, nds) (mem_of_alookup hnds)
      rw [hc (sNode, nds) (mem_of_alookup hnds)] at h1
      omega
    obtain ⟨ge', hge', hle'⟩ := hmin r hr
    have hgee : ge' = ge := by
      rw [hge] at hge'
      exact (Option.some.inj hge').symm
    subst hgee
    have hu1 : routeCost level route = (route.length - 1) * c :=
      routeCost_uniform hc hchain
    have hu2 : routeCost level r = (r.length - 1) * c :=
      routeCost_uniform hc hr
    have hlen1 : (1 : Nat) ≤ route.length := List.length_pos.mpr hchain.ne_nil
    have hlen2 : (1 : Nat) ≤ r.length := List.length_pos.mpr hr.ne_nil
    have hseglen : segs.length = route.length := by
      rw [← hsmap, List.length_map]
    have hmul : (route.length - 1) * c ≤ (r.length - 1) * c := by
      rw [← hu1, ← hu2]
      omega
    have := Nat.le_of_mul_le_mul_right hmul hc1
    omega

/-- A coordinate-free two-room level for exercising the amended optimality
theorem. -/
def lvlW2 : Level :=
  [("Gatehouse", { name := "Gatehouse", exits := [("north", "Keep")] }),
   ("Keep", { name := "Keep", exits := [] })]

/-- C1 witness: on a concrete coordinate-free two-room level, the amended
optimality theorem applies and yields a cost-minimal route. -/
theorem findPath_min_witness :
    ∃ segs, findPath lvlW2 "Gatehouse" "Keep" = .ok segs ∧
      Chain lvlW2 "Gatehouse" "Keep" (segs.map PathSegment.nodeName) ∧
      (∀ r, Chain lvlW2 "Gatehouse" "Keep" r →
        pathCost lvlW2 segs ≤ routeCost lvlW2 r) ∧
      (∀ c, (∀ p ∈ lvlW2, p.2.size.getD 1 = c) →
        ∀ r, Chain lvlW2 "Gatehouse" "Keep" r → segs.length ≤ r.length) :=
  findPath_min lvlW2 "Gatehouse" "Keep" (by decide) (by decide) (by decide)
    (by decide) (Chain.cons rfl (by simp) (Chain.single rfl))

/-- The level of the C1 counterexample: stored coordinates place "Upper
Ward" between "Gate" and "Exit" on the grid, so the Manhattan heuristic
prefers the heavy room "Upper Ward" (size 2) and never explores the cheap
detour through "Cellar" (size 1) before dequeuing the end node. -/
def lvlCX : Level :=
  [("Gate", { name := "Gate", exits := [("north", "Upper Ward"), ("south", "Cellar")],
              x := some 0, y := some 0 }),
   ("Upper Ward", { name := "Upper Ward", exits := [("north", "Exit")], size := some 2,
                    x := some 0, y := some 1 }),
   ("Cellar", { name := "Cellar", exits := [("north", "Exit")], size := some 1,
                x := some 0, y := some (-1) }),
   ("Exit", { name := "Exit", exits := [], size := some 1, x := some 0, y := some 2 })]

/-- C1 (counterexample): with stored coordinates the heuristic is not
admissible and `findPath` returns a route of room-weighted cost 3 even
though a cost-2 route exists, refuting the claimed unconditional
optimality. -/
theorem findPath_min_cex :
    findPath lvlCX "Gate" "Exit" =
      .ok [{ nodeName := "Gate", directionFromPrevious := none },
           { nodeName := "Upper Ward", directionFromPrevious := some "north" },
           { nodeName := "Exit", directionFromPrevious := some "north" }] ∧
    pathCost lvlCX
      [{ nodeName := "Gate", directionFromPrevious := none },
       { nodeName := "Upper Ward", directionFromPrevious := some "north" },
       { nodeName := "Exit", directionFromPrevious := some "north" }] = 3 ∧
    Chain lvlCX "Gate" "Exit" ["Gate", "Cellar", "Exit"] ∧
    routeCost lvlCX ["Gate", "Cellar", "Exit"] = 2 := by
  refine ⟨?_, by decide, ?_, by decide⟩
  · simp [findPath, astarLoop, relaxExits, alookup, aset, pqEnqueue, pqInsert,
      getHeuristic, ahas, lvlCX, buildChain, annotatePath, annotateRest,
      findDirection, CANON_DIRS]
  · exact Chain.cons rfl (by simp [lvlCX]) (Chain.cons rfl (by simp [lvlCX])
      (Chain.single rfl))

/-! ### Claims C7, C8, C9 — game state, the game actions and the dispatcher

The embedded sources are the server generation of `game.ts` (getIntro,
getHelp, showStatus, getNewState, pickup, checkGameOver) and
`server/commands.ts` (the command dictionary and `handleCommand`).
JavaScript `Map`s are insertion-ordered association lists as before;
`Map.size` is the list length (keys are unique in every state the game
builds); `string | undefined` truthiness is `isTruthyStr`. -/

/-- JavaScript truthiness of a `string | undefined` value: `undefined` and
the empty string are falsy. -/
def isTruthyStr : Option String → Bool
  | none => false
  | some s => !(s == "")

/-- `GameState` (server/types.ts lines 140–155). -/
structure GameState where
  currentNode : String
  inventory : List (String × Nat)
  itemAcquiredFlag : Nat
  gameOver : Bool
  playerLevel : Level
  gamePhase : String
  updateMessage : String
deriving DecidableEq

/-- The whitespace class relevant to `String.prototype.trim` and `/\s+/`
for terminal input. -/
def jsIsWs (c : Char) : Bool :=
  c == ' ' || c == '\t' || c == '\n' || c == '\r'

/-- `String.prototype.trim`. -/
def jsTrim (s : String) : String :=
  ⟨((s.data.dropWhile jsIsWs).reverse.dropWhile jsIsWs).reverse⟩

/-- `output.replace(/\n/g, "\r\n")` (server/commands.ts line 654). -/
def jsReplaceNl (s : String) : String :=
  ⟨s.data.flatMap (fun c => if c == '\n' then ['\r', '\n'] else [c])⟩

/-- `word.charAt(0).toUpperCase() + word.slice(1).toLowerCase()`. -/
def jsCapitalize (s : String) : String :=
  match s.data with
  | [] => ""
  | c :: cs => ⟨c.toUpper :: cs.map Char.toLower⟩

/-- `dir.charAt(0).toUpperCase() + dir.slice(1)` (no lower-casing of the
tail — used by showStatus for direction display). -/
def jsCapFirst (s : String) : String :=
  match s.data with
  | [] => ""
  | c :: cs => ⟨c.toUpper :: cs⟩

def splitOnWsAux : List Char → List Char → List String
  | [], acc => [⟨acc.reverse⟩]
  | c :: cs, acc =>
    if jsIsWs c then ⟨acc.reverse⟩ :: splitOnWsAux cs []
    else splitOnWsAux cs (c :: acc)

/-- `trimmedInput.split(/\s+/)`: the input reaching this call is trimmed
and non-empty, so splitting at single whitespace characters and dropping
the empty fields produced by runs agrees with the regex split. -/
def splitWs (s : String) : List String :=
  (splitOnWsAux s.data []).filter (fun t => !(t == ""))

def splitOnSpaceAux : List Char → List Char → List String
  | [], acc => [⟨acc.reverse⟩]
  | c :: cs, acc =>
    if c == ' ' then ⟨acc.reverse⟩ :: splitOnSpaceAux cs []
    else splitOnSpaceAux cs (c :: acc)

/-- `rawDestination.split(" ")` (a literal one-space separator). -/
def jsSplitSpace (s : String) : List String :=
  splitOnSpaceAux s.data []

/-- `cmdName.padEnd(10)`. -/
def padEnd (s : String) (n : Nat) : String :=
  s ++ ⟨List.replicate (n - s.data.length) ' '⟩

/-- `"-".repeat(27)`. -/
def dashes27 : String := "---------------------------"

/-- `getIntro` (server/game.ts): the storyline text. -/
def getIntro : String :=
  "\n" ++
  "STORYLINE\n" ++
  dashes27 ++ "\n" ++
  "Yugi has been banished to the Shadow Realm. Kaiba partnered with\n" ++
  "the evil Maximillion Pegasus and was given the “Soul Prison” card\n" ++
  "to trap Yugi during their last duel. Luckily, Yugi had on his\n" ++
  "Millennium Puzzle necklace with him when he was trapped, so Yami\n" ++
  "is there in spirit, guiding Yugi on how to get out of the Shadow Realm.\n" ++
  "Bad news, the necklace fell off when Yugi was banished. Yami\x27s\n" ++
  "instructions are simple, gather for Exodia and the necklace to\n" ++
  "break out of the Shadow Realm. However, beware of Necross, the zombie\n" ++
  "guardian of the Shadow Realm. Your mission is daunting, break into\n" ++
  "the Castle of Necross’ and find the Exodia the Forbidden One (Head \n" ++
  "of Exodia), Right Arm of The Forbidden One, Left Arm of the Forbidden\n" ++
  "One, Right Leg of the Forbidden One, Left Leg of the Forbidden One,\n" ++
  "and the Millennium Puzzle all while avoiding Necross! Once you have\n" ++
  "all the cards and your necklace, find and defeat Necross to exit the\n" ++
  "Shadow Realm!\n\n" ++
  "Press enter to continue to instructions."

/-- `getHelp` (server/game.ts): the instructions text; the final line
depends on the phase. -/
def getHelp (state : GameState) : String :=
  "\n" ++
  "INSTRUCTIONS\n" ++
  dashes27 ++ "\n" ++
  "To move around the castle type:\n" ++
  "\tmove ____ or go ____ (replace ____ with cardinal direction).\n\n" ++
  "To pick up items type:\n" ++
  "\tget ____ (replace ____ with the full item name including spaces).\n\n" ++
  "To show the rules type:\n" ++
  "\thelp\n\n" ++
  "To quit type:\n" ++
  "\tquit or exit\n\n" ++
  "The commands aren\x27t case sensitive so don\x27t worry about that!\n" ++
  (if state.gamePhase == "intro" || state.gamePhase == "instruct" then
    "Press enter to start the game!"
  else
    "Press enter to return to the game!")

/-- `showStatus` (server/game.ts): builds the status screen; on the
item-acquired path it also clears `updateMessage` and the flag, so the
(possibly updated) state is returned along with the `Result`. -/
def showStatus (state : GameState) : GameState × Except String String :=
  match alookup state.playerLevel state.currentNode with
  | none =>
    (state, .error ("Current room \"" ++ state.currentNode ++
      "\" not found in player\x27s level map."))
  | some currentRoomNode =>
    let availableCanonDirs := CANON_DIRS.filter (fun d => ahas currentRoomNode.exits d)
    let directions :=
      if availableCanonDirs.length > 0 then
        String.intercalate ", " (availableCanonDirs.map jsCapFirst)
      else
        "nowhere - no exits!"
    let pieces : String × String × String × String × GameState :=
      if state.currentNode == "Exit" then
        ("You are exiting the castle.",
         "You dropped all the items in your inventory and give up!",
         "",
         "Necross laughs at you and taunts you to try again!",
         state)
      else
        let roomStatus :=
          if isTruthyStr currentRoomNode.boss then
            "You are in the " ++ state.currentNode ++ ". Necross is here!"
          else
            "You are in the " ++ state.currentNode ++ "."
        let possibleMovements :=
          if isTruthyStr currentRoomNode.boss then
            "You can\x27t move. It\x27s time to duel!"
          else
            "You can move " ++ jsToLower directions ++ "."
        let inventoryItems := state.inventory.map (fun p =>
          if p.2 > 1 then p.1 ++ " (" ++ toString p.2 ++ ")" else p.1)
        let inventoryMsg :=
          "Inventory: [" ++ String.intercalate ", " inventoryItems ++ "]"
        if isTruthyStr currentRoomNode.item then
          let newItem := currentRoomNode.item.getD ""
          let itemStatus :=
            if !(ahas state.inventory newItem) then
              if isTruthyStr currentRoomNode.boss then
                newItem ++ " is on the ground! To get it back, beat Necross!"
              else
                newItem ++ " is on the ground! To pick it up, type \x27get " ++
                  jsToLower newItem ++ "\x27!"
            else ""
          (roomStatus, inventoryMsg, possibleMovements, itemStatus, state)
        else
          if state.itemAcquiredFlag == 1 then
            (roomStatus, inventoryMsg, possibleMovements, state.updateMessage,
             { state with updateMessage := "", itemAcquiredFlag := 0 })
          else
            (roomStatus, inventoryMsg, possibleMovements,
             "Nothing is on the ground!", state)
    match pieces with
    | (roomStatus, inventoryMsg, possibleMovements, itemStatus, stateF) =>
      let pfx :=
        if isTruthyStr currentRoomNode.boss || state.currentNode == "Exit" then
          "\x1b[2J\x1b[H"
        else ""
      (stateF, .ok (pfx ++ "\n" ++ dashes27 ++ "\n" ++ roomStatus ++ "\n" ++
        inventoryMsg ++ "\n" ++ itemStatus ++ "\n" ++ dashes27 ++ "\n" ++
        possibleMovements ++ "\n" ++ stateF.updateMessage ++ "\n"))

/-- `getNewState` (server/game.ts): moves the player along a normalised
direction; an empty-string exit target is falsy in the source and treated
as no exit. -/
def getNewState (state : GameState) (playerDirection : String) : GameState :=
  match alookup state.playerLevel state.currentNode with
  | none => { state with updateMessage := "Err: Current room not found." }
  | some currentRoomNode =>
    let normalizedDir := normalizeDirectionInput playerDirection
    let nextRoom : Option String :=
      if isTruthyStr normalizedDir then
        match normalizedDir with
        | some nd => alookup currentRoomNode.exits nd
        | none => none
      else none
    if isTruthyStr nextRoom then
      { state with currentNode := nextRoom.getD "" }
    else if !(isTruthyStr normalizedDir) then
      { state with updateMessage := playerDirection ++
          " didn\x27t match any existing direction. Please use north, south, east, or west!" }
    else
      { state with updateMessage := "You can\x27t move " ++
          jsToLower playerDirection ++ ", see above for the directions you can move!" }

/-- `pickup` (server/game.ts): succeeds exactly when the room has a truthy
item whose lower-casing matches the argument and the item is not already
held; the success path adds the item, clears the room slot and sets the
acquisition flag. -/
def pickup (state : GameState) (groundItem : String) : GameState :=
  match alookup state.playerLevel state.currentNode with
  | none => { state with updateMessage := "Err: Current room not found." }
  | some currentRoomNode =>
    match currentRoomNode.item with
    | some itemInRoom =>
      if itemInRoom ≠ "" ∧ jsToLower groundItem = jsToLower itemInRoom then
        if !(ahas state.inventory itemInRoom) then
          { state with
            inventory := aset state.inventory itemInRoom 1,
            playerLevel := aset state.playerLevel state.currentNode
              { currentRoomNode with item := none },
            itemAcquiredFlag := 1,
            updateMessage := "You have obtained " ++ itemInRoom ++ "!" }
        else
          { state with updateMessage := "You already have this." }
      else
        { state with updateMessage := groundItem ++ " isn\x27t in " ++
            state.currentNode ++ "! Make sure you spelled it correctly!" }
    | none =>
      { state with updateMessage := groundItem ++ " isn\x27t in " ++
          state.currentNode ++ "! Make sure you spelled it correctly!" }

/-- The boss-defeat message of `checkGameOver`. -/
def defeatMessage : String :=
  "You have been defeated by Necross! You didn\x27t have all the Exodia " ++
  "pieces and the necklace! You\x27re stuck in the Shadow Realm!\n " ++
  "Thank you for playing! Hope you enjoyed it!"

/-- The boss-victory message of `checkGameOver`. -/
def victoryMessage : String :=
  "You used your necklace and Exodia pieces to beat Necross and exit " ++
  "the Shadow Realm! Make sure Kaiba and Pegasus pay for this!\n " ++
  "Thank you for playing! Hope you enjoyed it!"

/-- `checkGameOver` (server/game.ts, the claim's cited lines): the Exit
farewell, then the boss branch keyed solely on `inventory.size < 6`. -/
def checkGameOver (state : GameState) : GameState :=
  match alookup state.playerLevel state.currentNode with
  | none => { state with updateMessage := "Err: Current room not found." }
  | some currentRoomNode =>
    let state :=
      if state.currentNode == "Exit" then
        { state with updateMessage := "Thanks for playing! Hope you enjoyed it!",
                     gameOver := true }
      else state
    if isTruthyStr currentRoomNode.boss then
      if state.inventory.length < 6 then
        { state with updateMessage := defeatMessage, gameOver := true }
      else
        { state with updateMessage := victoryMessage, gameOver := true }
    else state

/-- The command dictionary's names and descriptions, in insertion order
(server/commands.ts lines 276–517); the `help` command renders these. -/
def commandDescs : List (String × String) :=
  [("path", "path <destination> - Shows shortest path to a destination."),
   ("clear", "Clear the terminal screen."),
   ("move", "Move in a cardinal direction (move <east, south, west, or north>)."),
   ("go", "Another alias for move."),
   ("get", "Pick up an item (ex. get <item>)"),
   ("help", "Display this help message and game instructions."),
   ("quit", "Exit the game."),
   ("exit", "Exit the game.")]

/-- The `path` command (server/commands.ts lines 277–375). -/
def execPath (args : List String) (gameState : GameState) :
    GameState × String × Bool :=
  if args.length < 1 then
    (gameState, "Please specify a destination! Example: path <destination>", false)
  else
    let rawDestination := String.intercalate " " args
    let destination :=
      String.intercalate " " ((jsSplitSpace rawDestination).map jsCapitalize)
    let gameState :=
      match findPath gameState.playerLevel gameState.currentNode destination with
      | .error .startOrEndNodeNotFound =>
        { gameState with updateMessage := "The destination \"" ++ destination ++
            "\" does not exist in the castle. Please check your spelling." }
      | .error .noPathFound =>
        { gameState with updateMessage :=
            "There is no traversable path from your current location (" ++
            gameState.currentNode ++ ") to " ++ destination ++ "." }
      | .error .internalGraphConsistency =>
        { gameState with updateMessage :=
            "An internal error prevented finding the path. Please notify the game master." }
      | .ok path =>
        let pathOutput := "Path to " ++ destination ++ ":\n" ++
          (if path.length > 1 then
            String.join ((path.drop 1).map (fun segment =>
              if isTruthyStr segment.directionFromPrevious then
                "  - Go " ++ jsToLower (segment.directionFromPrevious.getD "") ++
                  " to " ++ segment.nodeName ++ "\n"
              else
                "  - Arrive at " ++ segment.nodeName ++ " (unknown direction)\n"))
          else
            "\nYou are already in " ++ destination ++ ".")
        { gameState with updateMessage := pathOutput }
    let pair := showStatus gameState
    match pair.2 with
    | .error _ =>
      (pair.1, "An internal game error occurred. Please restart the game.",
        pair.1.gameOver)
    | .ok d => (pair.1, d, pair.1.gameOver)

/-- The `clear` command. -/
def execClear (_args : List String) (gameState : GameState) :
    GameState × String × Bool :=
  (gameState, "\x1b[2J\x1b[H", false)

/-- The `move` command (also dispatched for its alias `go`). -/
def execMove (args : List String) (gameState : GameState) :
    GameState × String × Bool :=
  let gameState :=
    match args with
    | a :: _ => getNewState gameState (jsCapitalize a)
    | [] => { gameState with updateMessage := "You need a direction! (ex. move north)" }
  let gameState := checkGameOver gameState
  let pair := showStatus gameState
  match pair.2 with
  | .error _ =>
    (pair.1, "An internal game error occurred. Please restart the game.",
      pair.1.gameOver)
  | .ok d => (pair.1, d, pair.1.gameOver)

/-- The `get` command. -/
def execGet (args : List String) (gameState : GameState) :
    GameState × String × Bool :=
  let itemName := String.intercalate " " args
  let gameState :=
    if itemName ≠ "" then pickup gameState itemName
    else { gameState with updateMessage :=
      "You can\x27t pick up thin air! Include the item name!" }
  let gameState := checkGameOver gameState
  let pair := showStatus gameState
  match pair.2 with
  | .error _ =>
    (pair.1, "An internal game error occurred. Please restart the game.",
      pair.1.gameOver)
  | .ok d => (pair.1, d, pair.1.gameOver)

/-- The `help` command: renders the dictionary's descriptions. -/
def execHelp (_args : List String) (gameState : GameState) :
    GameState × String × Bool :=
  (gameState,
   "\r\n--- General Commands ---\r\n" ++
     String.join (commandDescs.map (fun p =>
       "  " ++ padEnd p.1 10 ++ " - " ++ p.2 ++ "\r\n")) ++
     "\r\nPress enter to return to the game!",
   false)

/-- The `quit` command (also dispatched for its alias `exit`): jumps the
player to "Exit" and lets `checkGameOver` end the session. -/
def execQuit (_args : List String) (gameState : GameState) :
    GameState × String × Bool :=
  let gameState := { gameState with currentNode := "Exit" }
  let gameState := checkGameOver gameState
  let pair := showStatus gameState
  match pair.2 with
  | .error _ =>
    (pair.1, "An internal game error occurred. Please restart the game.",
      pair.1.gameOver)
  | .ok d => (pair.1, d, pair.1.gameOver)

/-- `handleCommand` (server/commands.ts lines 530–663): trims and
lower-cases the input, clears the update message, routes by phase —
`intro`/`instruct`/`help` advance on empty input and re-render otherwise,
`playing` dispatches through the command dictionary — then prepends the
clear-screen escape (unless closing) and converts newlines for the
terminal. -/
def handleCommand (inputCommand : String) (gameState : GameState) :
    GameState × String × Bool :=
  let trimmedInput := jsToLower (jsTrim inputCommand)
  let gameState := { gameState with updateMessage := "" }
  let result : GameState × String × Bool :=
    match gameState.gamePhase with
    | "intro" =>
      if trimmedInput == "" then
        let gameState := { gameState with gamePhase := "instruct" }
        (gameState, getHelp gameState, false)
      else
        (gameState, getIntro, false)
    | "instruct" =>
      if trimmedInput == "" then
        let gameState := { gameState with gamePhase := "playing" }
        let pair := showStatus gameState
        match pair.2 with
        | .error _ =>
          (pair.1, "An internal error occurred while starting the game status. Please restart.",
            true)
        | .ok d => (pair.1, d, false)
      else
        (gameState, getHelp gameState, false)
    | "help" =>
      if trimmedInput == "" then
        let gameState := { gameState with gamePhase := "playing" }
        let pair := showStatus gameState
        match pair.2 with
        | .error _ =>
          (pair.1, "An internal error occurred while returning to game. Please restart.",
            true)
        | .ok d => (pair.1, d, false)
      else
        (gameState, getHelp gameState, false)
    | "playing" =>
      if trimmedInput == "" then
        let pair := showStatus gameState
        match pair.2 with
        | .error _ =>
          (pair.1, "An internal error occurred while refreshing status. Please try again.",
            false)
        | .ok d => (pair.1, d, false)
      else
        let parts := splitWs trimmedInput
        let commandName := parts.headD ""
        let args := parts.tail
        match commandName with
        | "path" => execPath args gameState
        | "clear" => execClear args gameState
        | "move" => execMove args gameState
        | "go" => execMove args gameState
        | "get" => execGet args gameState
        | "help" =>
          let gameState := { gameState with gamePhase := "help", updateMessage := "" }
          execHelp args gameState
        | "quit" => execQuit args gameState
        | "exit" => execQuit args gameState
        | _ =>
          let gameState := { gameState with updateMessage :=
            "Command \x27" ++ commandName ++
              "\x27 not found. Type \x27help\x27 for available commands." }
          let pair := showStatus gameState
          match pair.2 with
          | .error _ =>
            (pair.1, "An internal error occurred while displaying status after your command. Please try again.",
              false)
          | .ok d => (pair.1, d, false)
    | _ =>
      (gameState, "An unexpected error occurred. Please reconnect.\r\n", true)
  match result with
  | (st, output, shouldCloseWs) =>
    let output := if !shouldCloseWs then "\x1b[2J\x1b[H" ++ output else output
    (st, jsReplaceNl output, shouldCloseWs)

/-- C7 (amended): whenever game-over is evaluated with the player in a boss
room, the session becomes terminal (gameOver = true) with position,
inventory and level untouched, and it is a win exactly when the inventory
holds at least six entries — the item identities are never consulted — and
a loss exactly when it holds fewer. -/
theorem checkGameOver_boss_spec (state : GameState) (nd : LevelNode)
    (hnd : alookup state.playerLevel state.currentNode = some nd)
    (hboss : isTruthyStr nd.boss = true) :
    (checkGameOver state).gameOver = true ∧
    (checkGameOver state).currentNode = state.currentNode ∧
    (checkGameOver state).inventory = state.inventory ∧
    (checkGameOver state).playerLevel = state.playerLevel ∧
    ((checkGameOver state).updateMessage = victoryMessage ↔
      6 ≤ state.inventory.length) ∧
    ((checkGameOver state).updateMessage = defeatMessage ↔
      state.inventory.length < 6) := by
  have hvd : ¬ victoryMessage = defeatMessage := by decide
  have hdv : ¬ defeatMessage = victoryMessage := by decide
  refine ⟨?_, ?_, ?_, ?_, ?_, ?_⟩ <;>
    by_cases hex : (state.currentNode == "Exit") = true <;>
    by_cases hlen : state.inventory.length < 6 <;>
    simp [checkGameOver, hnd, hboss, hex, hlen, hvd, hdv] <;>
    omega

/-- The boss room of the C7 scenarios. -/
def bossNodeC7 : LevelNode :=
  { name := "Catacombs", exits := [], boss := some "Necross" }

def lvlC7 : Level := [("Catacombs", bossNodeC7)]

/-- Six inventory entries, none of them an Exodia piece or the necklace. -/
def junkInventory : List (String × Nat) :=
  [("Pebble", 1), ("Twig", 1), ("Mud", 1), ("Leaf", 1), ("Bone", 1), ("Rock", 1)]

def stC7cex : GameState :=
  { currentNode := "Catacombs", inventory := junkInventory, itemAcquiredFlag := 0,
    gameOver := false, playerLevel := lvlC7, gamePhase := "playing",
    updateMessage := "" }

/-- C7 (counterexample): the claim requires a win exactly when the
inventory contains every required relic, but `checkGameOver` only counts
entries: six junk items that include no relic at all still produce the
victory ending. -/
theorem checkGameOver_relic_cex :
    (checkGameOver stC7cex).gameOver = true ∧
    (checkGameOver stC7cex).updateMessage = victoryMessage ∧
    "Millennium Puzzle" ∉ stC7cex.inventory.map Prod.fst :=
  ⟨rfl, rfl, by decide⟩

def stC7w : GameState :=
  { currentNode := "Catacombs", inventory := [("Millennium Puzzle", 1)],
    itemAcquiredFlag := 0, gameOver := false, playerLevel := lvlC7,
    gamePhase := "playing", updateMessage := "" }

/-- C7 witness: a player facing the boss with a single item loses, and the
session is terminal. -/
theorem checkGameOver_boss_spec_witness :
    (checkGameOver stC7w).gameOver = true ∧
    (checkGameOver stC7w).updateMessage = defeatMessage :=
  ⟨(checkGameOver_boss_spec stC7w bossNodeC7 rfl rfl).1,
   (checkGameOver_boss_spec stC7w bossNodeC7 rfl rfl).2.2.2.2.2.mpr (by decide)⟩

/-- C8: `get <item>` never moves the player; when the current room is
missing only an error message is set; the pickup succeeds — item added to
the inventory, removed from the room, obtained-message set — exactly when
the room holds a (truthy) item whose lower-casing matches the argument and
it is not already held; an already-held match and a mismatch (or empty
room) each leave the state unchanged apart from an explanatory message. -/
theorem pickup_spec (state : GameState) (groundItem : String) :
    (pickup state groundItem).currentNode = state.currentNode ∧
    (alookup state.playerLevel state.currentNode = none →
      pickup state groundItem =
        { state with updateMessage := "Err: Current room not found." }) ∧
    (∀ nd itemInRoom, alookup state.playerLevel state.currentNode = some nd →
      nd.item = some itemInRoom → isTruthyStr nd.item = true →
      jsToLower groundItem = jsToLower itemInRoom →
      ahas state.inventory itemInRoom = false →
      (pickup state groundItem).inventory = aset state.inventory itemInRoom 1 ∧
      (pickup state groundItem).playerLevel =
        aset state.playerLevel state.currentNode { nd with item := none } ∧
      (pickup state groundItem).updateMessage =
        "You have obtained " ++ itemInRoom ++ "!") ∧
    (∀ nd itemInRoom, alookup state.playerLevel state.currentNode = some nd →
      nd.item = some itemInRoom → isTruthyStr nd.item = true →
      jsToLower groundItem = jsToLower itemInRoom →
      ahas state.inventory itemInRoom = true →
      pickup state groundItem =
        { state with updateMessage := "You already have this." }) ∧
    (∀ nd, alookup state.playerLevel state.currentNode = some nd →
      (∀ itemInRoom, nd.item = some itemInRoom →
        itemInRoom = "" ∨ jsToLower groundItem ≠ jsToLower itemInRoom) →
      pickup state groundItem =
        { state with updateMessage := groundItem ++ " isn\x27t in " ++
            state.currentNode ++ "! Make sure you spelled it correctly!" }) := by
  refine ⟨?_, ?_, ?_, ?_, ?_⟩
  · cases h1 : alookup state.playerLevel state.currentNode with
    | none => simp [pickup, h1]
    | some nd0 =>
      cases h2 : nd0.item with
      | none => simp [pickup, h1, h2]
      | some it =>
        by_cases h3 : it ≠ "" ∧ jsToLower groundItem = jsToLower it
        · by_cases h4 : ahas state.inventory it <;>
            simp [pickup, h1, h2, h3, h4]
        · simp [pickup, h1, h2, h3]
  · intro h1
    simp [pickup, h1]
  · intro nd itemInRoom hnd hitem htruthy hmatch hnothas
    have hne : itemInRoom ≠ "" := by
      rw [hitem] at htruthy
      simpa [isTruthyStr] using htruthy
    refine ⟨?_, ?_, ?_⟩ <;>
      simp [pickup, hnd, hitem, hne, hmatch, hnothas]
  · intro nd itemInRoom hnd hitem htruthy hmatch hhas
    have hne : itemInRoom ≠ "" := by
      rw [hitem] at htruthy
      simpa [isTruthyStr] using htruthy
    simp [pickup, hnd, hitem, hne, hmatch, hhas]
  · intro nd hnd hbad
    cases hitem : nd.item with
    | none => simp [pickup, hnd, hitem]
    | some it =>
      have hcond : ¬ (it ≠ "" ∧ jsToLower groundItem = jsToLower it) := by
        rcases hbad it hitem with h | h
        · intro hc
          exact hc.1 h
        · intro hc
          exact h hc.2
      simp [pickup, hnd, hitem, hcond]

/-- The C8 witness scenario: an armory holding the left arm. -/
def armoryNodeC8 : LevelNode :=
  { name := "Armory", exits := [],
    item := some "Left Arm of the Forbidden One" }

def stC8 : GameState :=
  { currentNode := "Armory", inventory := [("Millennium Puzzle", 1)],
    itemAcquiredFlag := 0, gameOver := false,
    playerLevel := [("Armory", armoryNodeC8)], gamePhase := "playing",
    updateMessage := "" }

/-- C8 witness: a lower-cased argument picks the room's item up — the
inventory gains it, the room loses it, and the obtained-message is set. -/
theorem pickup_spec_witness :
    (pickup stC8 "left arm of the forbidden one").inventory =
      aset stC8.inventory "Left Arm of the Forbidden One" 1 ∧
    (pickup stC8 "left arm of the forbidden one").playerLevel =
      aset stC8.playerLevel "Armory" { armoryNodeC8 with item := none } ∧
    (pickup stC8 "left arm of the forbidden one").updateMessage =
      "You have obtained Left Arm of the Forbidden One!" :=
  (pickup_spec stC8 "left arm of the forbidden one").2.2.1 armoryNodeC8
    "Left Arm of the Forbidden One" rfl rfl rfl rfl rfl

/-- `showStatus` never changes the game phase (it only ever clears the
update message and the acquisition flag). -/
theorem showStatus_fst_gamePhase (s : GameState) :
    (showStatus s).1.gamePhase = s.gamePhase := by
  unfold showStatus
  cases h : alookup s.playerLevel s.currentNode with
  | none => rfl
  | some nd =>
    by_cases h1 : (s.currentNode == "Exit") = true <;>
    by_cases h2 : isTruthyStr nd.item = true <;>
    by_cases h3 : (s.itemAcquiredFlag == 1) = true <;>
    by_cases h4 : ahas s.inventory (nd.item.getD "") = true <;>
    by_cases h5 : isTruthyStr nd.boss = true <;>
    simp [h1, h2, h3, h4, h5]

/-- C9: from the intro phase an empty (post-trim) input advances the phase
to `instruct` and renders the instructions text (`getHelp`), and a further
empty input from `instruct` advances the phase to `playing`; any non-empty
input in those phases re-renders the current phase's text — the storyline
for `intro`, the instructions for `instruct` — without advancing the phase
or touching any other state field. -/
theorem handleCommand_intro_instruct_spec (st : GameState) (input : String) :
    (st.gamePhase = "intro" → jsToLower (jsTrim input) = "" →
      (handleCommand input st).1.gamePhase = "instruct" ∧
      (handleCommand input st).1 =
        { st with updateMessage := "", gamePhase := "instruct" } ∧
      (handleCommand input st).2.1 =
        jsReplaceNl ("\x1b[2J\x1b[H" ++
          getHelp { st with updateMessage := "", gamePhase := "instruct" }) ∧
      (handleCommand input st).2.2 = false) ∧
    (st.gamePhase = "intro" → jsToLower (jsTrim input) ≠ "" →
      (handleCommand input st).1 = { st with updateMessage := "" } ∧
      (handleCommand input st).2.1 = jsReplaceNl ("\x1b[2J\x1b[H" ++ getIntro) ∧
      (handleCommand input st).2.2 = false) ∧
    (st.gamePhase = "instruct" → jsToLower (jsTrim input) = "" →
      (handleCommand input st).1.gamePhase = "playing") ∧
    (st.gamePhase = "instruct" → jsToLower (jsTrim input) ≠ "" →
      (handleCommand input st).1 = { st with updateMessage := "" } ∧
      (handleCommand input st).2.1 =
        jsReplaceNl ("\x1b[2J\x1b[H" ++ getHelp { st with updateMessage := "" }) ∧
      (handleCommand input st).2.2 = false) := by
  refine ⟨?_, ?_, ?_, ?_⟩
  · intro hphase hempty
    refine ⟨?_, ?_, ?_, ?_⟩ <;> simp [handleCommand, hphase, hempty]
  · intro hphase hne
    refine ⟨?_, ?_, ?_⟩ <;> simp [handleCommand, hphase, hne]
  · intro hphase hempty
    have hred : (handleCommand input st).1 =
        (showStatus { st with updateMessage := "", gamePhase := "playing" }).1 := by
      cases hss : (showStatus { st with updateMessage := "", gamePhase := "playing" }).2 with
      | error e => simp [handleCommand, hphase, hempty, hss]
      | ok d => simp [handleCommand, hphase, hempty, hss]
    rw [hred, showStatus_fst_gamePhase]
  · intro hphase hne
    refine ⟨?_, ?_, ?_⟩ <;> simp [handleCommand, hphase, hne]

def stC9 : GameState :=
  { currentNode := "Gatehouse", inventory := [], itemAcquiredFlag := 0,
    gameOver := false,
    playerLevel := [("Gatehouse", { name := "Gatehouse", exits := [] })],
    gamePhase := "intro", updateMessage := "" }

/-- C9 witness: a fresh intro session advances to the instructions on an
empty input and to playing on the next empty input. -/
theorem handleCommand_intro_instruct_spec_witness :
    (handleCommand "" stC9).1.gamePhase = "instruct" ∧
    (handleCommand "" { stC9 with gamePhase := "instruct" }).1.gamePhase =
      "playing" :=
  ⟨((handleCommand_intro_instruct_spec stC9 "").1 rfl rfl).1,
   (handleCommand_intro_instruct_spec { stC9 with gamePhase := "instruct" }
      "").2.2.1 rfl rfl⟩

end TextBound
